import Mathlib

/-!
Shallow embedding of `ts_backup.py`: a one-shot, stat-based directory
synchronizer.  Paths are modelled as lists of segments, `os.stat` as an
oracle returning `Option` (with `none` standing for an `OSError`), the
diff tree (`DirCmpShallowOnly` instances) as an inductive tree, and the
concurrent update walker as a queue-driven drain loop whose per-task
timeouts are an oracle on the tasks' left paths.  The top-level driver
(`__main__`) and the safe action executor are embedded as trace-producing
functions, so that ordering and purity properties can be stated over the
event traces they emit.
-/

/-- A filesystem path, modelled as its list of segments.  Joining a path
with a plain child name (which on the Python side contains no separator,
coming from a directory listing) appends one segment. -/
abbrev FsPath := List String

/-- Embeds `ParentJoiner(parent_path).join(child_path)` (ts_backup.py
lines 214-227): parent path joined with a plain child file or folder name. -/
def ParentJoiner.join (parent_path : FsPath) (child_path : String) : FsPath :=
  parent_path ++ [child_path]

/-- Embeds `ParentPairJoiner(left, right).join(child_path)` (lines 230-244):
the pair of joined (left, right) paths. -/
def ParentPairJoiner.join (parent_left_path parent_right_path : FsPath)
    (child_path : String) : FsPath × FsPath :=
  (ParentJoiner.join parent_left_path child_path,
   ParentJoiner.join parent_right_path child_path)

/-- Result of a successful `os.stat` call: the mode word, the size and the
modification time (modelled as an integer timestamp; only equality of
timestamps is ever used by the program). -/
structure StatResult where
  st_mode : Nat
  st_size : Nat
  st_mtime : Int
deriving DecidableEq

/-- Embeds `stat.S_IFMT`: the file-kind bits of a mode word (mask 0o170000 = 61440). -/
def S_IFMT (mode : Nat) : Nat := mode &&& 61440

/-- Embeds `stat.S_IFREG` (0o100000): the regular-file kind. -/
def S_IFREG : Nat := 32768

/-- Embeds `stat.S_IFDIR` (0o040000): the directory kind. -/
def S_IFDIR : Nat := 16384

/-- A stat oracle modelling the filesystem metadata at the instant of the
run: `some` is a successful `os.stat`, `none` is an `OSError`. -/
abbrev StatOracle := FsPath → Option StatResult

/-- Embeds `DirCmpShallowOnly._sig` (lines 122-126): the shallow signature
`(S_IFMT(st_mode), st_size, st_mtime)` of one stat result. -/
def DirCmpShallowOnly.sig (full_stat : StatResult) : Nat × Nat × Int :=
  (S_IFMT full_stat.st_mode, full_stat.st_size, full_stat.st_mtime)

/-- Embeds `DirCmpShallowOnly.cmp` (lines 91-120).  A `none` result models
an `OSError` raised by either `os.stat` call propagating out of `cmp`.
The body keeps the source's two sequential `if` statements over an
`outcome` variable initialised to `False`: the first one (the regular-file
check) re-assigns `False` and the second one assigns `True` whenever the
two signatures are equal, so the first check never influences the result. -/
def DirCmpShallowOnly.cmp (st : StatOracle) (file_a file_b : FsPath) : Option Bool :=
  match st file_a, st file_b with
  | some stat_a, some stat_b =>
    let signature_a := DirCmpShallowOnly.sig stat_a
    let signature_b := DirCmpShallowOnly.sig stat_b
    let outcome := false
    let outcome := if signature_a.1 ≠ S_IFREG ∨ signature_b.1 ≠ S_IFREG then false else outcome
    let outcome := if signature_a = signature_b then true else outcome
    some outcome
  | _, _ => none

/-- Embeds `DirCmpShallowOnly._cmp` (lines 84-89): `not abs(cmp(a, b))`
with an `OSError` mapped to bucket index 2.  Bucket 0 is `same_files`,
bucket 1 is `diff_files`, bucket 2 is `funny_files`. -/
def DirCmpShallowOnly.cmpBucket (st : StatOracle) (file_a file_b : FsPath) : Nat :=
  match DirCmpShallowOnly.cmp st file_a file_b with
  | some r => if r then 0 else 1
  | none => 2

/-- Embeds `DirCmpShallowOnly.cmpfiles` (lines 60-82): classify each common
file name into the `(same_files, diff_files, funny_files)` triple according
to `_cmp` on the joined paths, preserving iteration order. -/
def DirCmpShallowOnly.cmpfiles (st : StatOracle) (dir_a dir_b : FsPath) :
    List String → List String × List String × List String
  | [] => ([], [], [])
  | common_file :: rest =>
    let file_a := ParentJoiner.join dir_a common_file
    let file_b := ParentJoiner.join dir_b common_file
    let res := DirCmpShallowOnly.cmpfiles st dir_a dir_b rest
    match DirCmpShallowOnly.cmpBucket st file_a file_b with
    | 0 => (common_file :: res.1, res.2.1, res.2.2)
    | 1 => (res.1, common_file :: res.2.1, res.2.2)
    | _ => (res.1, res.2.1, common_file :: res.2.2)

/-- One node of the diff tree: a `DirCmpShallowOnly` instance for the
directory pair `(left, right)`, after its lazily computed attributes
(`left_only`, `right_only`, `same_files`, `diff_files`, `funny_files`,
`subdirs`) have been evaluated.  `subdirs` is the dictionary of common
subdirectory name to child node (line 54-58), modelled as an association
list. -/
inductive DiffNode : Type where
  | node (left right : FsPath)
      (left_only right_only same_files diff_files funny_files : List String)
      (subdirs : List (String × DiffNode))

/-- The left (source-side) path of a node. -/
def DiffNode.left : DiffNode → FsPath
  | .node l _ _ _ _ _ _ _ => l

/-- The right (target-side) path of a node. -/
def DiffNode.right : DiffNode → FsPath
  | .node _ r _ _ _ _ _ _ => r

/-- Names present only under the left directory. -/
def DiffNode.left_only : DiffNode → List String
  | .node _ _ lo _ _ _ _ _ => lo

/-- Names present only under the right directory. -/
def DiffNode.right_only : DiffNode → List String
  | .node _ _ _ ro _ _ _ _ => ro

/-- Common file names classified as different. -/
def DiffNode.diff_files : DiffNode → List String
  | .node _ _ _ _ _ df _ _ => df

/-- The child nodes, keyed by common subdirectory name. -/
def DiffNode.subdirs : DiffNode → List (String × DiffNode)
  | .node _ _ _ _ _ _ _ sub => sub

/-- The values of the `subdirs` dictionary (`diff_item.subdirs.values()`). -/
def subdirsVals : List (String × DiffNode) → List DiffNode
  | [] => []
  | (_, c) :: rest => c :: subdirsVals rest

mutual

/-- Size measure of a diff tree, used for termination of the queue and
stack traversals. -/
def nsize : DiffNode → Nat
  | .node _ _ _ _ _ _ _ sub => 1 + nsizeL sub

/-- Size measure of a subdir association list. -/
def nsizeL : List (String × DiffNode) → Nat
  | [] => 0
  | (_, c) :: rest => nsize c + nsizeL rest

end

/-- Size measure of a plain list of nodes (a task queue or a stack). -/
def nsizeQ : List DiffNode → Nat
  | [] => 0
  | d :: rest => nsize d + nsizeQ rest

/-- Embeds the local update pairs of one node computed by `process_diff`
(lines 184-186): `map(ParentPairJoiner(left, right).join,
chain(left_only, diff_files))`. -/
def nodeUpdates (d : DiffNode) : List (FsPath × FsPath) :=
  (d.left_only ++ d.diff_files).map (fun n => ParentPairJoiner.join d.left d.right n)

/-- Embeds the local removal paths of one node computed by
`collect_removals` (line 208): `map(ParentJoiner(right).join, right_only)`. -/
def nodeRemovals (d : DiffNode) : List FsPath :=
  d.right_only.map (fun n => ParentJoiner.join d.right n)

mutual

/-- Every node of the diff tree, the root first. -/
def allNodes : DiffNode → List DiffNode
  | .node l r lo ro sf df ff sub => .node l r lo ro sf df ff sub :: allNodesL sub

/-- Every node of every tree in a subdir association list. -/
def allNodesL : List (String × DiffNode) → List DiffNode
  | [] => []
  | (_, c) :: rest => allNodes c ++ allNodesL rest

end

/-- Concatenation of the local update pairs of a list of nodes; applied to
`allNodes d` it is the union, over every node of the tree, of that node's
joined `left_only` and `diff_files` pairs. -/
def catUpdates : List DiffNode → List (FsPath × FsPath)
  | [] => []
  | d :: rest => nodeUpdates d ++ catUpdates rest

/-- Concatenation of the local removal paths of a list of nodes. -/
def catRemovals : List DiffNode → List FsPath
  | [] => []
  | d :: rest => nodeRemovals d ++ catRemovals rest

theorem nsize_pos (d : DiffNode) : 0 < nsize d := by
  cases d with
  | node l r lo ro sf df ff sub => simp [nsize]

theorem nsizeQ_append (a b : List DiffNode) : nsizeQ (a ++ b) = nsizeQ a + nsizeQ b := by
  induction a with
  | nil => simp [nsizeQ]
  | cons d rest ih => simp [nsizeQ, ih]; omega

theorem nsizeQ_subdirsVals (l : List (String × DiffNode)) :
    nsizeQ (subdirsVals l) = nsizeL l := by
  induction l with
  | nil => rfl
  | cons mc rest ih =>
    obtain ⟨m, c⟩ := mc
    simp [subdirsVals, nsizeQ, nsizeL, ih]

theorem nsizeQ_reverse (l : List DiffNode) : nsizeQ l.reverse = nsizeQ l := by
  induction l with
  | nil => rfl
  | cons d rest ih =>
    simp [List.reverse_cons, nsizeQ_append, nsizeQ, ih]
    omega

theorem nsizeQ_subdirs_lt (d : DiffNode) : nsizeQ (subdirsVals d.subdirs) < nsize d := by
  cases d with
  | node l r lo ro sf df ff sub =>
    simp [DiffNode.subdirs, nsize, nsizeQ_subdirsVals]

/-- Embeds the drain loop of `BackupShallowDiff.collect_updates`
(lines 160-172) together with the task bodies it awaits.  The FIFO queue
`async_results` holds the scheduled subtree tasks, identified by their
left path (line 195 enqueues `(next_diff_item.left, result)`); the oracle
`tout` tells whether awaiting a given task's future times out after 30
seconds (line 164).  Awaiting a completed future is modelled by running
the task body `process_diff` (lines 174-198) at dequeue time: append the
node's local update pairs, then enqueue all of its children.  A timed-out
task is modelled as never having run: it contributes no pairs, schedules
no children, and its left path is emitted as a timeout warning (line 166).
Returns the accumulated `all_diff_files` contents and the warning list. -/
def collectUpdatesAux (tout : FsPath → Bool) :
    List DiffNode → List (FsPath × FsPath) × List FsPath
  | [] => ([], [])
  | d :: rest =>
    if tout d.left then
      let res := collectUpdatesAux tout rest
      (res.1, d.left :: res.2)
    else
      let res := collectUpdatesAux tout (rest ++ subdirsVals d.subdirs)
      (nodeUpdates d ++ res.1, res.2)
termination_by q => nsizeQ q
decreasing_by
  · simp only [nsizeQ]
    have := nsize_pos d
    omega
  · simp only [nsizeQ, nsizeQ_append]
    have := nsizeQ_subdirs_lt d
    omega

/-- Embeds `BackupShallowDiff.collect_updates` (lines 150-172): the root
node is processed synchronously (line 158), enqueueing the root's
children; the drain loop then awaits every enqueued task, with per-task
timeouts given by the oracle `tout`.  The first component is the chained
`all_diff_files` (the returned collection), the second the list of timeout
warnings logged. -/
def collect_updates (tout : FsPath → Bool) (root : DiffNode) :
    List (FsPath × FsPath) × List FsPath :=
  let res := collectUpdatesAux tout (subdirsVals root.subdirs)
  (nodeUpdates root ++ res.1, res.2)

/-- Embeds the explicit-stack loop of `BackupShallowDiff.collect_removals`
(lines 200-211).  The Python list used as a stack pops from its end and
extends with the children in dictionary order; here the stack keeps its
top at the head, so pushing appends the reversed children in front, which
pops the same elements in the same order. -/
def collect_removals_go : List DiffNode → List FsPath
  | [] => []
  | d :: rest =>
    nodeRemovals d ++ collect_removals_go ((subdirsVals d.subdirs).reverse ++ rest)
termination_by q => nsizeQ q
decreasing_by
  simp only [nsizeQ, nsizeQ_append, nsizeQ_reverse]
  have := nsizeQ_subdirs_lt d
  omega

/-- Embeds `BackupShallowDiff.collect_removals` (lines 200-211): the stack
starts with the root diff node. -/
def collect_removals (root : DiffNode) : List FsPath :=
  collect_removals_go [root]

mutual

/-- Modelled from the spec (§4.3, §7 scheduling timeout): the union of
update pairs over every node of the subtree reached without a timeout —
a timed-out task's whole subtree is omitted.  The refinement target that
`collect_updates` is compared against. -/
def prunedUpdates (tout : FsPath → Bool) : DiffNode → List (FsPath × FsPath)
  | .node l r lo ro sf df ff sub =>
    nodeUpdates (.node l r lo ro sf df ff sub) ++ prunedUpdatesL tout sub

/-- Modelled from the spec: pruned union over a subdir association list;
a child whose task timed out contributes nothing. -/
def prunedUpdatesL (tout : FsPath → Bool) : List (String × DiffNode) → List (FsPath × FsPath)
  | [] => []
  | (_, c) :: rest =>
    (if tout c.left then [] else prunedUpdates tout c) ++ prunedUpdatesL tout rest

end

mutual

/-- Modelled from the spec (§7 scheduling timeout): the timeout warnings
expected from a run — one per scheduled-and-reached task whose future
timed out, identified by its left path. -/
def prunedWarn (tout : FsPath → Bool) : DiffNode → List FsPath
  | .node _ _ _ _ _ _ _ sub => prunedWarnL tout sub

/-- Modelled from the spec: warnings over a subdir association list. -/
def prunedWarnL (tout : FsPath → Bool) : List (String × DiffNode) → List FsPath
  | [] => []
  | (_, c) :: rest =>
    (if tout c.left then [c.left] else prunedWarn tout c) ++ prunedWarnL tout rest

end

/-- Keys of a subdir association list are pairwise distinct (they come
from a Python dictionary). -/
def nodupKeys : List (String × DiffNode) → Bool
  | [] => true
  | (m, _) :: rest => (rest.all fun mc => decide (¬ mc.1 = m)) && nodupKeys rest

mutual

/-- Well-formedness of a diff tree, as guaranteed by the `dircmp` builder
(phases 1, 2 and 4) and stated as the DiffNode invariant in spec §3:
`right_only` is disjoint from `left_only` and from `diff_files` (a common
name is never an only-name), subdir names are distinct dictionary keys,
and each child node's paths are the parent's paths joined with the child's
name (line 56-58). -/
def wfb : DiffNode → Bool
  | .node l r lo ro _ df _ sub =>
    (ro.all fun n => decide (¬ n ∈ lo ∧ ¬ n ∈ df)) && nodupKeys sub
      && childrenOk l r sub

/-- Well-formedness of the children of a node whose left path is `l` and
right path is `r`. -/
def childrenOk (l r : FsPath) : List (String × DiffNode) → Bool
  | [] => true
  | (m, c) :: rest =>
    decide (c.left = ParentJoiner.join l m) && decide (c.right = ParentJoiner.join r m)
      && wfb c && childrenOk l r rest

end

/-- Observable steps of the top-level driver: directory creation and its
dry-run warning (`check_and_create_folder`, lines 247-259), the progress
prints of the two loops, and the actual copy / removal actions (lines
353-367).  The `dry` flag on a print records which of the two message
forms was used. -/
inductive Event where
  | mkdir (p : FsPath)
  | logCreateNeeded (p : FsPath)
  | printCopy (src tgt : FsPath) (dry : Bool)
  | copyAction (src tgt : FsPath)
  | printRemove (tgt : FsPath) (dry : Bool)
  | removeAction (tgt : FsPath)
deriving DecidableEq

/-- Embeds `check_and_create_folder(target, dry_run)` (lines 247-259).
The module-global `_TARGET_PATH` read by the function body is passed
explicitly as `TARGET_PATH`; `isdir` is the `os.path.isdir` oracle.  The
existence check is performed on the `target` parameter, but both the
logged path and the directory created are `TARGET_PATH`. -/
def check_and_create_folder (TARGET_PATH : FsPath) (isdir : FsPath → Bool)
    (target : FsPath) (dry_run : Bool) : List Event :=
  if !(isdir target) then
    if dry_run then [Event.logCreateNeeded TARGET_PATH]
    else [Event.mkdir TARGET_PATH]
  else []

/-- Embeds the copy+update loop of `__main__` (lines 355-360): for each
collected pair, print (in the dry-run or normal form) and, unless dry-run,
invoke `do_copy`. -/
def copyPhase (dry_run : Bool) : List (FsPath × FsPath) → List Event
  | [] => []
  | (file_left, file_right) :: rest =>
    (if dry_run then [Event.printCopy file_left file_right true]
     else [Event.printCopy file_left file_right false,
           Event.copyAction file_left file_right])
      ++ copyPhase dry_run rest

/-- Embeds the remove loop of `__main__` (lines 362-367): for each
collected removal path, print and, unless dry-run, invoke `do_remove`. -/
def removePhase (dry_run : Bool) : List FsPath → List Event
  | [] => []
  | doomed_file_right :: rest =>
    (if dry_run then [Event.printRemove doomed_file_right true]
     else [Event.printRemove doomed_file_right false,
           Event.removeAction doomed_file_right])
      ++ removePhase dry_run rest

/-- Embeds the driver of `__main__` after argument parsing (lines
346-367): create the target root if needed, then run the copy loop over
`collect_updates`, then the remove loop over `collect_removals`.  The
call `check_and_create_folder(_TARGET_PATH, dry_run=...)` passes the
global as the `target` argument (line 351). -/
def mainRun (TARGET_PATH : FsPath) (isdir : FsPath → Bool) (dry_run : Bool)
    (tout : FsPath → Bool) (root : DiffNode) : List Event :=
  check_and_create_folder TARGET_PATH isdir TARGET_PATH dry_run
    ++ copyPhase dry_run (collect_updates tout root).1
    ++ removePhase dry_run (collect_removals root)

/-- Tests whether an event is an invocation of `do_copy`. -/
def isCopyAct : Event → Bool
  | Event.copyAction _ _ => true
  | _ => false

/-- Tests whether an event is an invocation of `do_remove`. -/
def isRemoveAct : Event → Bool
  | Event.removeAction _ => true
  | _ => false

/-- Tests whether an event mutates the filesystem: `os.mkdir`, `do_copy`
and `do_remove` invocations do; prints and log warnings do not. -/
def mutates : Event → Bool
  | Event.mkdir _ => true
  | Event.copyAction _ _ => true
  | Event.removeAction _ => true
  | _ => false

/-- Extracts the pair reported by a copy-loop print. -/
def copyReport : Event → Option (FsPath × FsPath)
  | Event.printCopy l r _ => some (l, r)
  | _ => none

/-- Extracts the path reported by a remove-loop print. -/
def removeReport : Event → Option FsPath
  | Event.printRemove t _ => some t
  | _ => none

/-- Observable steps of the safe action executor: the invocation of a
wrapped operation with its arguments, and the failure log printed by the
`safe_action` wrapper (function name, the formatted arguments and the full
traceback, lines 285-289). -/
inductive ExecEvent where
  | invoke (funcName : String) (args : List FsPath)
  | failLog (funcName : String) (args : List FsPath) (tb : String)
deriving DecidableEq

/-- The filesystem-effect oracles used by `do_copy` and `do_remove`: the
`os.path.isdir` test and the four `shutil`/`os` operations, each returning
`Except` where an `error` models a raised exception (its payload the
traceback text). -/
structure FsOps where
  isdir : FsPath → Bool
  copytree : FsPath → FsPath → Except String Unit
  copy2 : FsPath → FsPath → Except String Unit
  rmtree : FsPath → Except String Unit
  removeFile : FsPath → Except String Unit

/-- Embeds the body of `do_copy` (lines 295-306), before the `safe_action`
wrapper: `copytree` for a directory source, `copy2` otherwise.  An
`error` result models an exception escaping the body. -/
def do_copy_raw (ops : FsOps) (file_source file_target : FsPath) : Except String Unit :=
  if ops.isdir file_source then ops.copytree file_source file_target
  else ops.copy2 file_source file_target

/-- Embeds the body of `do_remove` (lines 309-319), before the
`safe_action` wrapper: `rmtree` for a directory target, `os.remove`
otherwise. -/
def do_remove_raw (ops : FsOps) (file_target : FsPath) : Except String Unit :=
  if ops.isdir file_target then ops.rmtree file_target
  else ops.removeFile file_target

/-- Embeds the `safe_action` wrapper (lines 262-292): run the wrapped
body; a raised exception is caught and turned into a failure log carrying
the function name, the call arguments and the traceback — the wrapper
itself always returns normally, so its result is a plain event list with
no error alternative. -/
def safe_action (funcName : String) (args : List FsPath)
    (body : Except String Unit) : List ExecEvent :=
  ExecEvent.invoke funcName args ::
    (match body with
     | Except.ok _ => []
     | Except.error exc => [ExecEvent.failLog funcName args exc])

/-- Embeds the decorated `do_copy` (line 295): `safe_action` around the
copy body. -/
def do_copy (ops : FsOps) (file_source file_target : FsPath) : List ExecEvent :=
  safe_action "do_copy" [file_source, file_target] (do_copy_raw ops file_source file_target)

/-- Embeds the decorated `do_remove` (line 309): `safe_action` around the
removal body. -/
def do_remove (ops : FsOps) (file_target : FsPath) : List ExecEvent :=
  safe_action "do_remove" [file_target] (do_remove_raw ops file_target)

/-- The non-dry-run copy loop as seen by the executor: `do_copy` on every
collected pair in order. -/
def runCopies (ops : FsOps) : List (FsPath × FsPath) → List ExecEvent
  | [] => []
  | (file_left, file_right) :: rest =>
    do_copy ops file_left file_right ++ runCopies ops rest

/-- The non-dry-run remove loop as seen by the executor: `do_remove` on
every collected path in order. -/
def runRemovals (ops : FsOps) : List FsPath → List ExecEvent
  | [] => []
  | doomed_file_right :: rest =>
    do_remove ops doomed_file_right ++ runRemovals ops rest

/-- One whole non-dry-run action phase: all copies, then all removals. -/
def runActions (ops : FsOps) (updates : List (FsPath × FsPath))
    (removals : List FsPath) : List ExecEvent :=
  runCopies ops updates ++ runRemovals ops removals

/-- Extracts the operation name and arguments of an invocation event. -/
def invokeOf : ExecEvent → Option (String × List FsPath)
  | ExecEvent.invoke f a => some (f, a)
  | _ => none

/-- The contribution of one queued task to the final update collection:
nothing when its future times out, its whole pruned subtree otherwise. -/
def prunedOf (tout : FsPath → Bool) (d : DiffNode) : List (FsPath × FsPath) :=
  if tout d.left then [] else prunedUpdates tout d

/-- The contribution of one queued task to the warning log. -/
def prunedWarnOf (tout : FsPath → Bool) (d : DiffNode) : List FsPath :=
  if tout d.left then [d.left] else prunedWarn tout d

theorem collectUpdatesAux_nil (tout : FsPath → Bool) :
    collectUpdatesAux tout [] = ([], []) := by
  simp [collectUpdatesAux]

theorem collectUpdatesAux_cons (tout : FsPath → Bool) (d : DiffNode) (rest : List DiffNode) :
    collectUpdatesAux tout (d :: rest) =
      if tout d.left then
        ((collectUpdatesAux tout rest).1, d.left :: (collectUpdatesAux tout rest).2)
      else
        (nodeUpdates d ++ (collectUpdatesAux tout (rest ++ subdirsVals d.subdirs)).1,
         (collectUpdatesAux tout (rest ++ subdirsVals d.subdirs)).2) := by
  rw [collectUpdatesAux]

theorem prunedUpdates_eq (tout : FsPath → Bool) (d : DiffNode) :
    prunedUpdates tout d = nodeUpdates d ++ prunedUpdatesL tout d.subdirs := by
  cases d with
  | node l r lo ro sf df ff sub => rw [prunedUpdates, DiffNode.subdirs]

theorem prunedUpdatesL_cons (tout : FsPath → Bool) (m : String) (c : DiffNode)
    (rest : List (String × DiffNode)) :
    prunedUpdatesL tout ((m, c) :: rest) =
      (if tout c.left then [] else prunedUpdates tout c) ++ prunedUpdatesL tout rest := by
  rw [prunedUpdatesL]

theorem prunedWarn_eq (tout : FsPath → Bool) (d : DiffNode) :
    prunedWarn tout d = prunedWarnL tout d.subdirs := by
  cases d with
  | node l r lo ro sf df ff sub => rw [prunedWarn, DiffNode.subdirs]

theorem prunedWarnL_cons (tout : FsPath → Bool) (m : String) (c : DiffNode)
    (rest : List (String × DiffNode)) :
    prunedWarnL tout ((m, c) :: rest) =
      (if tout c.left then [c.left] else prunedWarn tout c) ++ prunedWarnL tout rest := by
  rw [prunedWarnL]

theorem flatMap_prunedOf_subdirsVals (tout : FsPath → Bool) (sub : List (String × DiffNode)) :
    (subdirsVals sub).flatMap (prunedOf tout) = prunedUpdatesL tout sub := by
  induction sub with
  | nil => rfl
  | cons mc rest ih =>
    obtain ⟨m, c⟩ := mc
    rw [subdirsVals, List.flatMap_cons, prunedUpdatesL_cons, ih, prunedOf]

theorem flatMap_prunedWarnOf_subdirsVals (tout : FsPath → Bool) (sub : List (String × DiffNode)) :
    (subdirsVals sub).flatMap (prunedWarnOf tout) = prunedWarnL tout sub := by
  induction sub with
  | nil => rfl
  | cons mc rest ih =>
    obtain ⟨m, c⟩ := mc
    rw [subdirsVals, List.flatMap_cons, prunedWarnL_cons, ih, prunedWarnOf]

theorem nsize_node_subdirs (d : DiffNode) : nsize d = 1 + nsizeL d.subdirs := by
  cases d with
  | node l r lo ro sf df ff sub => rw [nsize, DiffNode.subdirs]

/-- Both components of the drain loop's result, on any queue, are
permutations of the concatenated per-task contributions. -/
theorem collectAux_perm (tout : FsPath → Bool) :
    ∀ fuel q, nsizeQ q ≤ fuel →
      ((collectUpdatesAux tout q).1.Perm (q.flatMap (prunedOf tout)) ∧
       (collectUpdatesAux tout q).2.Perm (q.flatMap (prunedWarnOf tout))) := by
  intro fuel
  induction fuel with
  | zero =>
    intro q hq
    cases q with
    | nil => simp [collectUpdatesAux_nil]
    | cons d rest =>
      exfalso
      have := nsize_pos d
      simp only [nsizeQ] at hq
      omega
  | succ n ih =>
    intro q hq
    cases q with
    | nil => simp [collectUpdatesAux_nil]
    | cons d rest =>
      rw [collectUpdatesAux_cons]
      simp only [nsizeQ] at hq
      have hdpos := nsize_pos d
      cases htl : tout d.left with
      | true =>
        simp only [htl, if_true]
        have hrest : nsizeQ rest ≤ n := by omega
        obtain ⟨ih1, ih2⟩ := ih rest hrest
        constructor
        · simpa [List.flatMap_cons, prunedOf, htl] using ih1
        · simpa [List.flatMap_cons, prunedWarnOf, htl] using ih2
      | false =>
        simp only [htl, Bool.false_eq_true, if_false]
        have hsz : nsizeQ (rest ++ subdirsVals d.subdirs) ≤ n := by
          rw [nsizeQ_append, nsizeQ_subdirsVals]
          have := nsize_node_subdirs d
          omega
        obtain ⟨ih1, ih2⟩ := ih (rest ++ subdirsVals d.subdirs) hsz
        rw [List.flatMap_append, flatMap_prunedOf_subdirsVals] at ih1
        rw [List.flatMap_append, flatMap_prunedWarnOf_subdirsVals] at ih2
        have hflat1 : (d :: rest).flatMap (prunedOf tout) =
            (nodeUpdates d ++ prunedUpdatesL tout d.subdirs) ++ rest.flatMap (prunedOf tout) := by
          simp [List.flatMap_cons, prunedOf, htl, prunedUpdates_eq]
        have hflat2 : (d :: rest).flatMap (prunedWarnOf tout) =
            prunedWarnL tout d.subdirs ++ rest.flatMap (prunedWarnOf tout) := by
          simp [List.flatMap_cons, prunedWarnOf, htl, prunedWarn_eq]
        constructor
        · rw [hflat1, List.append_assoc]
          exact List.Perm.append_left _ (ih1.trans List.perm_append_comm)
        · rw [hflat2]
          exact ih2.trans List.perm_append_comm

/-- The collection returned by `collect_updates` is a permutation of the
spec-side pruned union, and its warning log is a permutation of the
expected timeout warnings. -/
theorem collect_updates_perm (tout : FsPath → Bool) (root : DiffNode) :
    (collect_updates tout root).1.Perm (prunedUpdates tout root) ∧
    (collect_updates tout root).2.Perm (prunedWarn tout root) := by
  obtain ⟨h1, h2⟩ := collectAux_perm tout (nsizeQ (subdirsVals root.subdirs))
    (subdirsVals root.subdirs) (Nat.le_refl _)
  rw [flatMap_prunedOf_subdirsVals] at h1
  rw [flatMap_prunedWarnOf_subdirsVals] at h2
  constructor
  · rw [collect_updates, prunedUpdates_eq]
    exact List.Perm.append_left _ h1
  · rw [collect_updates, prunedWarn_eq]
    exact h2

theorem allNodes_eq (d : DiffNode) : allNodes d = d :: allNodesL d.subdirs := by
  cases d with
  | node l r lo ro sf df ff sub => rw [allNodes, DiffNode.subdirs]

theorem allNodesL_cons (m : String) (c : DiffNode) (rest : List (String × DiffNode)) :
    allNodesL ((m, c) :: rest) = allNodes c ++ allNodesL rest := by
  rw [allNodesL]

theorem catUpdates_cons (d : DiffNode) (rest : List DiffNode) :
    catUpdates (d :: rest) = nodeUpdates d ++ catUpdates rest := rfl

theorem catRemovals_cons (d : DiffNode) (rest : List DiffNode) :
    catRemovals (d :: rest) = nodeRemovals d ++ catRemovals rest := rfl

theorem catUpdates_append (a b : List DiffNode) :
    catUpdates (a ++ b) = catUpdates a ++ catUpdates b := by
  induction a with
  | nil => rfl
  | cons d rest ih => simp [catUpdates_cons, ih]

theorem catRemovals_append (a b : List DiffNode) :
    catRemovals (a ++ b) = catRemovals a ++ catRemovals b := by
  induction a with
  | nil => rfl
  | cons d rest ih => simp [catRemovals_cons, ih]

/-- When no task times out, the pruned union coincides with the full
union over every node of the tree. -/
theorem pruned_eq_cat_aux (tout : FsPath → Bool) (h : ∀ p, tout p = false) :
    ∀ fuel, (∀ d, nsize d ≤ fuel → prunedUpdates tout d = catUpdates (allNodes d)) ∧
            (∀ sub, nsizeL sub ≤ fuel → prunedUpdatesL tout sub = catUpdates (allNodesL sub)) := by
  intro fuel
  induction fuel with
  | zero =>
    constructor
    · intro d hd
      exact absurd hd (by have := nsize_pos d; omega)
    · intro sub hs
      cases sub with
      | nil => rfl
      | cons mc rest =>
        exfalso
        obtain ⟨m, c⟩ := mc
        have := nsize_pos c
        simp only [nsizeL] at hs
        omega
  | succ n ih =>
    have nodePart : ∀ d, nsize d ≤ n + 1 → prunedUpdates tout d = catUpdates (allNodes d) := by
      intro d hd
      rw [prunedUpdates_eq, allNodes_eq, catUpdates_cons]
      congr 1
      apply ih.2
      have := nsize_node_subdirs d
      omega
    refine ⟨nodePart, ?_⟩
    intro sub
    induction sub with
    | nil => intro _; rfl
    | cons mc rest ihl =>
      obtain ⟨m, c⟩ := mc
      intro hs
      simp only [nsizeL] at hs
      have hc := nsize_pos c
      rw [prunedUpdatesL_cons, allNodesL_cons, catUpdates_append, h c.left]
      simp only [Bool.false_eq_true, if_false]
      congr 1
      · exact nodePart c (by omega)
      · exact ihl (by omega)

theorem pruned_eq_cat (tout : FsPath → Bool) (h : ∀ p, tout p = false) (d : DiffNode) :
    prunedUpdates tout d = catUpdates (allNodes d) :=
  (pruned_eq_cat_aux tout h (nsize d)).1 d (Nat.le_refl _)

theorem collect_removals_go_nil : collect_removals_go [] = [] := by
  simp [collect_removals_go]

theorem collect_removals_go_cons (d : DiffNode) (rest : List DiffNode) :
    collect_removals_go (d :: rest) =
      nodeRemovals d ++ collect_removals_go ((subdirsVals d.subdirs).reverse ++ rest) := by
  rw [collect_removals_go]

theorem flatMap_remTree_subdirsVals (sub : List (String × DiffNode)) :
    (subdirsVals sub).flatMap (fun c => catRemovals (allNodes c)) = catRemovals (allNodesL sub) := by
  induction sub with
  | nil => rfl
  | cons mc rest ih =>
    obtain ⟨m, c⟩ := mc
    rw [subdirsVals, List.flatMap_cons, allNodesL_cons, catRemovals_append, ih]

/-- The explicit-stack loop collects, on any stack, the concatenated
subtree removals of its elements (as an unordered collection). -/
theorem collect_removals_go_perm :
    ∀ fuel q, nsizeQ q ≤ fuel →
      (collect_removals_go q).Perm (q.flatMap (fun c => catRemovals (allNodes c))) := by
  intro fuel
  induction fuel with
  | zero =>
    intro q hq
    cases q with
    | nil => simp [collect_removals_go_nil]
    | cons d rest =>
      exfalso
      have := nsize_pos d
      simp only [nsizeQ] at hq
      omega
  | succ n ih =>
    intro q hq
    cases q with
    | nil => simp [collect_removals_go_nil]
    | cons d rest =>
      rw [collect_removals_go_cons]
      simp only [nsizeQ] at hq
      have hsz : nsizeQ ((subdirsVals d.subdirs).reverse ++ rest) ≤ n := by
        rw [nsizeQ_append, nsizeQ_reverse, nsizeQ_subdirsVals]
        have := nsize_node_subdirs d
        omega
      have ihq := ih ((subdirsVals d.subdirs).reverse ++ rest) hsz
      rw [List.flatMap_append] at ihq
      have hrev : ((subdirsVals d.subdirs).reverse.flatMap (fun c => catRemovals (allNodes c))).Perm
          (catRemovals (allNodesL d.subdirs)) := by
        rw [← flatMap_remTree_subdirsVals]
        exact List.Perm.flatMap_right _ (List.reverse_perm _)
      have step : (collect_removals_go ((subdirsVals d.subdirs).reverse ++ rest)).Perm
          (catRemovals (allNodesL d.subdirs) ++ rest.flatMap (fun c => catRemovals (allNodes c))) :=
        ihq.trans (List.Perm.append_right _ hrev)
      have hflat : (d :: rest).flatMap (fun c => catRemovals (allNodes c)) =
          nodeRemovals d ++ (catRemovals (allNodesL d.subdirs)
            ++ rest.flatMap (fun c => catRemovals (allNodes c))) := by
        rw [List.flatMap_cons, allNodes_eq, catRemovals_cons, List.append_assoc]
      rw [hflat]
      exact List.Perm.append_left _ step

/-- The removal collector returns, as an unordered collection, exactly
the union over every node of the tree of that node's joined `right_only`
paths. -/
theorem collect_removals_perm (root : DiffNode) :
    (collect_removals root).Perm (catRemovals (allNodes root)) := by
  have h := collect_removals_go_perm (nsizeQ [root]) [root] (Nat.le_refl _)
  simpa [collect_removals, List.flatMap_cons] using h

/-- C1: Completeness of the concurrent walker.  Assuming no per-task
timeout occurs, the collection returned by `collect_updates` equals
exactly (as an unordered collection) the union, over every node of the
diff tree, of the (source-path, target-path) pairs obtained by joining
that node's left and right paths with each name in that node's
`left_only` and `diff_files` sets — no subtree's contribution is lost,
however deep the scheduling chain. -/
theorem c1_walker_completeness (tout : FsPath → Bool) (root : DiffNode)
    (h : ∀ p, tout p = false) :
    (collect_updates tout root).1.Perm (catUpdates (allNodes root)) := by
  have hp := (collect_updates_perm tout root).1
  rwa [pruned_eq_cat tout h root] at hp

/-- A three-level diff tree used to instantiate the hypotheses of the
claim theorems on concrete data. -/
def witTree : DiffNode :=
  DiffNode.node ["s"] ["t"] ["a"] ["b"] [] ["c"] []
    [("d", DiffNode.node ["s", "d"] ["t", "d"] ["x"] ["y"] [] [] []
      [("e", DiffNode.node ["s", "d", "e"] ["t", "d", "e"] ["z"] [] [] [] [] [])])]

theorem c1_walker_completeness_witness :
    (∀ p : FsPath, (fun _ : FsPath => false) p = false) ∧
    (collect_updates (fun _ : FsPath => false) witTree).1.Perm (catUpdates (allNodes witTree)) :=
  ⟨fun _ => rfl, c1_walker_completeness (fun _ : FsPath => false) witTree (fun _ => rfl)⟩

/-- C7: Removal collector correctness.  The single-threaded explicit-stack
traversal `collect_removals` returns exactly (as an unordered collection)
the union, over every node of the diff tree, of the paths obtained by
joining that node's right path with each name in its `right_only` set. -/
theorem c7_removal_collector (root : DiffNode) :
    (collect_removals root).Perm (catRemovals (allNodes root)) :=
  collect_removals_perm root

@[simp] theorem DiffNode.left_node (l r : FsPath) (lo ro sf df ff : List String)
    (sub : List (String × DiffNode)) : (DiffNode.node l r lo ro sf df ff sub).left = l := rfl

@[simp] theorem DiffNode.right_node (l r : FsPath) (lo ro sf df ff : List String)
    (sub : List (String × DiffNode)) : (DiffNode.node l r lo ro sf df ff sub).right = r := rfl

@[simp] theorem DiffNode.left_only_node (l r : FsPath) (lo ro sf df ff : List String)
    (sub : List (String × DiffNode)) : (DiffNode.node l r lo ro sf df ff sub).left_only = lo := rfl

@[simp] theorem DiffNode.right_only_node (l r : FsPath) (lo ro sf df ff : List String)
    (sub : List (String × DiffNode)) : (DiffNode.node l r lo ro sf df ff sub).right_only = ro := rfl

@[simp] theorem DiffNode.diff_files_node (l r : FsPath) (lo ro sf df ff : List String)
    (sub : List (String × DiffNode)) : (DiffNode.node l r lo ro sf df ff sub).diff_files = df := rfl

@[simp] theorem DiffNode.subdirs_node (l r : FsPath) (lo ro sf df ff : List String)
    (sub : List (String × DiffNode)) : (DiffNode.node l r lo ro sf df ff sub).subdirs = sub := rfl

theorem mem_nodeUpdates {d : DiffNode} {s t : FsPath}
    (h : (s, t) ∈ nodeUpdates d) :
    ∃ n, (n ∈ d.left_only ∨ n ∈ d.diff_files) ∧ s = d.left ++ [n] ∧ t = d.right ++ [n] := by
  simp only [nodeUpdates, ParentPairJoiner.join, ParentJoiner.join, List.mem_map,
    List.mem_append, Prod.mk.injEq] at h
  obtain ⟨n, hn, hs, ht⟩ := h
  exact ⟨n, hn, hs.symm, ht.symm⟩

theorem mem_nodeRemovals {d : DiffNode} {p : FsPath}
    (h : p ∈ nodeRemovals d) :
    ∃ n, n ∈ d.right_only ∧ p = d.right ++ [n] := by
  simp only [nodeRemovals, ParentJoiner.join, List.mem_map] at h
  obtain ⟨n, hn, hp⟩ := h
  exact ⟨n, hn, hp.symm⟩

theorem wfb_parts {d : DiffNode} (h : wfb d = true) :
    (∀ n ∈ d.right_only, ¬ n ∈ d.left_only ∧ ¬ n ∈ d.diff_files) ∧
    nodupKeys d.subdirs = true ∧ childrenOk d.left d.right d.subdirs = true := by
  cases d with
  | node l r lo ro sf df ff sub =>
    rw [wfb] at h
    simp only [Bool.and_eq_true, List.all_eq_true, decide_eq_true_eq] at h
    simp only [DiffNode.right_only_node, DiffNode.left_only_node, DiffNode.diff_files_node,
      DiffNode.subdirs_node, DiffNode.left_node, DiffNode.right_node]
    exact ⟨h.1.1, h.1.2, h.2⟩

theorem childrenOk_mem {l r : FsPath} :
    ∀ {sub : List (String × DiffNode)}, childrenOk l r sub = true →
      ∀ {m : String} {c : DiffNode}, (m, c) ∈ sub →
        c.left = l ++ [m] ∧ c.right = r ++ [m] ∧ wfb c = true := by
  intro sub
  induction sub with
  | nil =>
    intro _ m c hmc
    cases hmc
  | cons mc rest ih =>
    obtain ⟨m', c'⟩ := mc
    intro h m c hmc
    rw [childrenOk] at h
    simp only [Bool.and_eq_true, decide_eq_true_eq, ParentJoiner.join] at h
    obtain ⟨⟨⟨hl, hr⟩, hw⟩, hrest⟩ := h
    rcases List.mem_cons.1 hmc with heq | hmem
    · injection heq with h1 h2
      subst h1
      subst h2
      exact ⟨hl, hr, hw⟩
    · exact ih hrest hmem

theorem nodupKeys_mem :
    ∀ {sub : List (String × DiffNode)}, nodupKeys sub = true →
      ∀ {m : String} {c1 c2 : DiffNode}, (m, c1) ∈ sub → (m, c2) ∈ sub → c1 = c2 := by
  intro sub
  induction sub with
  | nil =>
    intro _ m c1 c2 h1
    cases h1
  | cons mc rest ih =>
    obtain ⟨m', c'⟩ := mc
    intro h m c1 c2 h1 h2
    rw [nodupKeys] at h
    simp only [Bool.and_eq_true, List.all_eq_true, decide_eq_true_eq] at h
    obtain ⟨hfresh, hrest⟩ := h
    rcases List.mem_cons.1 h1 with e1 | m1 <;> rcases List.mem_cons.1 h2 with e2 | m2
    · injection e1 with a1 b1
      injection e2 with a2 b2
      subst b1
      subst b2
      rfl
    · injection e1 with a1 b1
      subst a1
      exact absurd rfl (hfresh _ m2)
    · injection e2 with a2 b2
      subst a2
      exact absurd rfl (hfresh _ m1)
    · exact ih hrest m1 m2

theorem nsize_mem_sub :
    ∀ {sub : List (String × DiffNode)} {m : String} {c : DiffNode},
      (m, c) ∈ sub → nsize c ≤ nsizeL sub := by
  intro sub
  induction sub with
  | nil =>
    intro m c h
    cases h
  | cons mc rest ih =>
    obtain ⟨m', c'⟩ := mc
    intro m c h
    rw [nsizeL]
    rcases List.mem_cons.1 h with e | hm
    · injection e with a b
      subst b
      exact Nat.le_add_right _ _
    · have := ih hm
      omega

theorem mem_catUpdates_allNodesL :
    ∀ {sub : List (String × DiffNode)} {s t : FsPath},
      (s, t) ∈ catUpdates (allNodesL sub) →
        ∃ m c, (m, c) ∈ sub ∧ (s, t) ∈ catUpdates (allNodes c) := by
  intro sub
  induction sub with
  | nil =>
    intro s t h
    rw [allNodesL] at h
    cases h
  | cons mc rest ih =>
    obtain ⟨m, c⟩ := mc
    intro s t h
    rw [allNodesL_cons, catUpdates_append, List.mem_append] at h
    rcases h with h | h
    · exact ⟨m, c, List.mem_cons_self _ _, h⟩
    · obtain ⟨m', c', hmem, hin⟩ := ih h
      exact ⟨m', c', List.mem_cons_of_mem _ hmem, hin⟩

theorem mem_catRemovals_allNodesL :
    ∀ {sub : List (String × DiffNode)} {p : FsPath},
      p ∈ catRemovals (allNodesL sub) →
        ∃ m c, (m, c) ∈ sub ∧ p ∈ catRemovals (allNodes c) := by
  intro sub
  induction sub with
  | nil =>
    intro p h
    rw [allNodesL] at h
    cases h
  | cons mc rest ih =>
    obtain ⟨m, c⟩ := mc
    intro p h
    rw [allNodesL_cons, catRemovals_append, List.mem_append] at h
    rcases h with h | h
    · exact ⟨m, c, List.mem_cons_self _ _, h⟩
    · obtain ⟨m', c', hmem, hin⟩ := ih h
      exact ⟨m', c', List.mem_cons_of_mem _ hmem, hin⟩

theorem mem_catUpdates_allNodes {d : DiffNode} {s t : FsPath}
    (h : (s, t) ∈ catUpdates (allNodes d)) :
    (s, t) ∈ nodeUpdates d ∨ ∃ m c, (m, c) ∈ d.subdirs ∧ (s, t) ∈ catUpdates (allNodes c) := by
  rw [allNodes_eq, catUpdates_cons, List.mem_append] at h
  rcases h with h | h
  · exact Or.inl h
  · exact Or.inr (mem_catUpdates_allNodesL h)

theorem mem_catRemovals_allNodes {d : DiffNode} {p : FsPath}
    (h : p ∈ catRemovals (allNodes d)) :
    p ∈ nodeRemovals d ∨ ∃ m c, (m, c) ∈ d.subdirs ∧ p ∈ catRemovals (allNodes c) := by
  rw [allNodes_eq, catRemovals_cons, List.mem_append] at h
  rcases h with h | h
  · exact Or.inl h
  · exact Or.inr (mem_catRemovals_allNodesL h)

theorem append_seg_inj {r : FsPath} {a b : String} (h : r ++ [a] = r ++ [b]) : a = b := by
  have := List.append_cancel_left h
  simpa using this

/-- Every update target produced inside a well-formed subtree extends that
subtree's right path by at least one segment. -/
theorem updates_shape :
    ∀ fuel (d : DiffNode), nsize d ≤ fuel → wfb d = true →
      ∀ s t, (s, t) ∈ catUpdates (allNodes d) →
        t.take d.right.length = d.right ∧ d.right.length < t.length := by
  intro fuel
  induction fuel with
  | zero =>
    intro d hd
    exact absurd hd (by have := nsize_pos d; omega)
  | succ n ih =>
    intro d hd hw s t ht
    rcases mem_catUpdates_allNodes ht with h | ⟨m, c, hmc, hc⟩
    · obtain ⟨nm, _, _, htt⟩ := mem_nodeUpdates h
      subst htt
      refine ⟨List.take_left _ _, ?_⟩
      simp
    · obtain ⟨_, hcr, hcw⟩ := childrenOk_mem (wfb_parts hw).2.2 hmc
      have hsz : nsize c ≤ n := by
        have h1 := nsize_mem_sub hmc
        have h2 := nsize_node_subdirs d
        omega
      obtain ⟨htake, hlen⟩ := ih c hsz hcw s t hc
      rw [hcr] at htake hlen
      have h3 : d.right.length ≤ (d.right ++ [m]).length := by simp
      constructor
      · have e1 : t.take d.right.length = (t.take (d.right ++ [m]).length).take d.right.length := by
          rw [List.take_take, min_eq_left h3]
        rw [e1, htake, List.take_left]
      · simp only [List.length_append, List.length_cons, List.length_nil] at hlen ⊢
        omega

/-- Every removal path produced inside a well-formed subtree extends that
subtree's right path by at least one segment. -/
theorem removals_shape :
    ∀ fuel (d : DiffNode), nsize d ≤ fuel → wfb d = true →
      ∀ p, p ∈ catRemovals (allNodes d) →
        p.take d.right.length = d.right ∧ d.right.length < p.length := by
  intro fuel
  induction fuel with
  | zero =>
    intro d hd
    exact absurd hd (by have := nsize_pos d; omega)
  | succ n ih =>
    intro d hd hw p hp
    rcases mem_catRemovals_allNodes hp with h | ⟨m, c, hmc, hc⟩
    · obtain ⟨nm, _, hpp⟩ := mem_nodeRemovals h
      subst hpp
      refine ⟨List.take_left _ _, ?_⟩
      simp
    · obtain ⟨_, hcr, hcw⟩ := childrenOk_mem (wfb_parts hw).2.2 hmc
      have hsz : nsize c ≤ n := by
        have h1 := nsize_mem_sub hmc
        have h2 := nsize_node_subdirs d
        omega
      obtain ⟨htake, hlen⟩ := ih c hsz hcw p hc
      rw [hcr] at htake hlen
      have h3 : d.right.length ≤ (d.right ++ [m]).length := by simp
      constructor
      · have e1 : p.take d.right.length = (p.take (d.right ++ [m]).length).take d.right.length := by
          rw [List.take_take, min_eq_left h3]
        rw [e1, htake, List.take_left]
      · simp only [List.length_append, List.length_cons, List.length_nil] at hlen ⊢
        omega

/-- Core disjointness over a well-formed tree: no target path of the full
update union coincides with any path of the full removal union. -/
theorem upd_rem_disjoint :
    ∀ fuel (d : DiffNode), nsize d ≤ fuel → wfb d = true →
      ∀ s t p, (s, t) ∈ catUpdates (allNodes d) → p ∈ catRemovals (allNodes d) → t ≠ p := by
  intro fuel
  induction fuel with
  | zero =>
    intro d hd
    exact absurd hd (by have := nsize_pos d; omega)
  | succ n ih =>
    intro d hd hw s t p hu hr heq
    subst heq
    obtain ⟨hro, hnodup, hchild⟩ := wfb_parts hw
    rcases mem_catUpdates_allNodes hu with hu' | ⟨m1, c1, hmc1, hc1⟩ <;>
      rcases mem_catRemovals_allNodes hr with hr' | ⟨m2, c2, hmc2, hc2⟩
    · obtain ⟨n1, hn1, _, ht1⟩ := mem_nodeUpdates hu'
      obtain ⟨n2, hn2, ht2⟩ := mem_nodeRemovals hr'
      have hee : d.right ++ [n1] = d.right ++ [n2] := by rw [← ht1, ← ht2]
      have hnn := append_seg_inj hee
      subst hnn
      obtain ⟨hno1, hno2⟩ := hro n1 hn2
      rcases hn1 with h | h
      · exact hno1 h
      · exact hno2 h
    · obtain ⟨n1, _, _, ht1⟩ := mem_nodeUpdates hu'
      obtain ⟨_, hcr2, hcw2⟩ := childrenOk_mem hchild hmc2
      have hsz2 : nsize c2 ≤ n := by
        have h1 := nsize_mem_sub hmc2
        have h2 := nsize_node_subdirs d
        omega
      obtain ⟨_, hlen2⟩ := removals_shape n c2 hsz2 hcw2 t hc2
      rw [hcr2] at hlen2
      rw [ht1] at hlen2
      simp at hlen2
    · obtain ⟨n2, _, ht2⟩ := mem_nodeRemovals hr'
      obtain ⟨_, hcr1, hcw1⟩ := childrenOk_mem hchild hmc1
      have hsz1 : nsize c1 ≤ n := by
        have h1 := nsize_mem_sub hmc1
        have h2 := nsize_node_subdirs d
        omega
      obtain ⟨_, hlen1⟩ := updates_shape n c1 hsz1 hcw1 s t hc1
      rw [hcr1] at hlen1
      rw [ht2] at hlen1
      simp at hlen1
    · obtain ⟨_, hcr1, hcw1⟩ := childrenOk_mem hchild hmc1
      obtain ⟨_, hcr2, hcw2⟩ := childrenOk_mem hchild hmc2
      have hsz1 : nsize c1 ≤ n := by
        have h1 := nsize_mem_sub hmc1
        have h2 := nsize_node_subdirs d
        omega
      have hsz2 : nsize c2 ≤ n := by
        have h1 := nsize_mem_sub hmc2
        have h2 := nsize_node_subdirs d
        omega
      by_cases hm : m1 = m2
      · subst hm
        rw [hcr1, ← hcr2] at *
        have hcc : c1 = c2 := by
          apply nodupKeys_mem hnodup hmc1 hmc2
        subst hcc
        exact ih c1 hsz1 hcw1 s t t hc1 hc2 rfl
      · obtain ⟨htake1, _⟩ := updates_shape n c1 hsz1 hcw1 s t hc1
        obtain ⟨htake2, _⟩ := removals_shape n c2 hsz2 hcw2 t hc2
        rw [hcr1] at htake1
        rw [hcr2] at htake2
        have hl1 : (d.right ++ [m1]).length = d.right.length + 1 := by simp
        have hl2 : (d.right ++ [m2]).length = d.right.length + 1 := by simp
        rw [hl1] at htake1
        rw [hl2] at htake2
        have hee : d.right ++ [m1] = d.right ++ [m2] := by rw [← htake1, ← htake2]
        exact hm (append_seg_inj hee)

/-- The pruned union is contained in the full union over every node. -/
theorem pruned_subset_aux (tout : FsPath → Bool) :
    ∀ fuel, (∀ d, nsize d ≤ fuel →
               ∀ x, x ∈ prunedUpdates tout d → x ∈ catUpdates (allNodes d)) ∧
            (∀ sub, nsizeL sub ≤ fuel →
               ∀ x, x ∈ prunedUpdatesL tout sub → x ∈ catUpdates (allNodesL sub)) := by
  intro fuel
  induction fuel with
  | zero =>
    constructor
    · intro d hd
      exact absurd hd (by have := nsize_pos d; omega)
    · intro sub hs x hx
      cases sub with
      | nil =>
        rw [prunedUpdatesL] at hx
        cases hx
      | cons mc rest =>
        exfalso
        obtain ⟨m, c⟩ := mc
        have := nsize_pos c
        simp only [nsizeL] at hs
        omega
  | succ n ih =>
    have nodePart : ∀ d, nsize d ≤ n + 1 →
        ∀ x, x ∈ prunedUpdates tout d → x ∈ catUpdates (allNodes d) := by
      intro d hd x hx
      rw [prunedUpdates_eq, List.mem_append] at hx
      rw [allNodes_eq, catUpdates_cons, List.mem_append]
      rcases hx with hx | hx
      · exact Or.inl hx
      · refine Or.inr (ih.2 d.subdirs ?_ x hx)
        have := nsize_node_subdirs d
        omega
    refine ⟨nodePart, ?_⟩
    intro sub
    induction sub with
    | nil =>
      intro _ x hx
      rw [prunedUpdatesL] at hx
      cases hx
    | cons mc rest ihl =>
      obtain ⟨m, c⟩ := mc
      intro hs x hx
      simp only [nsizeL] at hs
      have hc := nsize_pos c
      rw [prunedUpdatesL_cons, List.mem_append] at hx
      rw [allNodesL_cons, catUpdates_append, List.mem_append]
      rcases hx with hx | hx
      · left
        by_cases htc : tout c.left = true
        · rw [if_pos htc] at hx
          cases hx
        · rw [if_neg htc] at hx
          exact nodePart c (by omega) x hx
      · exact Or.inr (ihl (by omega) x hx)

/-- C8: Disjointness.  Over a well-formed diff tree (the invariant the
`dircmp` builder guarantees), the set of target paths produced by
`collect_updates` and the set of paths produced by `collect_removals` are
disjoint: no filesystem path appears both as an update target and as a
removal in the same run, whatever the timeout oracle. -/
theorem c8_update_removal_disjoint (tout : FsPath → Bool) (root : DiffNode)
    (h : wfb root = true) (s t p : FsPath)
    (hu : (s, t) ∈ (collect_updates tout root).1)
    (hr : p ∈ collect_removals root) : t ≠ p := by
  have h1 : (s, t) ∈ prunedUpdates tout root :=
    ((collect_updates_perm tout root).1.mem_iff).1 hu
  have h2 : (s, t) ∈ catUpdates (allNodes root) :=
    (pruned_subset_aux tout (nsize root)).1 root (Nat.le_refl _) _ h1
  have h3 : p ∈ catRemovals (allNodes root) :=
    ((collect_removals_perm root).mem_iff).1 hr
  exact upd_rem_disjoint (nsize root) root (Nat.le_refl _) h s t p h2 h3

theorem c8_update_removal_disjoint_witness :
    wfb witTree = true ∧
    (["s", "a"], ["t", "a"]) ∈ (collect_updates (fun _ : FsPath => false) witTree).1 ∧
    (["t", "b"] : FsPath) ∈ collect_removals witTree ∧
    (["t", "a"] : FsPath) ≠ ["t", "b"] := by
  have hw : wfb witTree = true := by rfl
  have hu : (["s", "a"], ["t", "a"]) ∈ (collect_updates (fun _ : FsPath => false) witTree).1 := by
    simp [collect_updates, collectUpdatesAux_cons, collectUpdatesAux_nil, subdirsVals,
      nodeUpdates, ParentPairJoiner.join, ParentJoiner.join, witTree]
  have hr : (["t", "b"] : FsPath) ∈ collect_removals witTree := by
    simp [collect_removals, collect_removals_go_cons, collect_removals_go_nil, subdirsVals,
      nodeRemovals, ParentJoiner.join, witTree]
  exact ⟨hw, hu, hr,
    c8_update_removal_disjoint (fun _ : FsPath => false) witTree hw ["s", "a"] ["t", "a"]
      ["t", "b"] hu hr⟩

/-- When either stat fails, `_cmp` returns bucket 2 (the `funny_files`
bucket) and no error escapes. -/
theorem cmpBucket_eq_two {st : StatOracle} {a b : FsPath}
    (h : st a = none ∨ st b = none) : DirCmpShallowOnly.cmpBucket st a b = 2 := by
  have hcmp : DirCmpShallowOnly.cmp st a b = none := by
    rw [DirCmpShallowOnly.cmp]
    rcases h with h | h
    · rw [h]
    · rw [h]
      cases st a <;> rfl
  rw [DirCmpShallowOnly.cmpBucket, hcmp]


/-- The bucket `_cmp` assigns to one common name of a directory pair. -/
def DirCmpShallowOnly.bucketOf (st : StatOracle) (dir_a dir_b : FsPath) (x : String) : Nat :=
  DirCmpShallowOnly.cmpBucket st (ParentJoiner.join dir_a x) (ParentJoiner.join dir_b x)

theorem cmpfiles_cons_same {st : StatOracle} {dir_a dir_b : FsPath} {hd : String}
    (rest : List String) (h : DirCmpShallowOnly.bucketOf st dir_a dir_b hd = 0) :
    DirCmpShallowOnly.cmpfiles st dir_a dir_b (hd :: rest) =
      (hd :: (DirCmpShallowOnly.cmpfiles st dir_a dir_b rest).1,
       (DirCmpShallowOnly.cmpfiles st dir_a dir_b rest).2.1,
       (DirCmpShallowOnly.cmpfiles st dir_a dir_b rest).2.2) := by
  rw [DirCmpShallowOnly.bucketOf] at h
  simp only [DirCmpShallowOnly.cmpfiles]
  rw [h]

theorem cmpfiles_cons_diff {st : StatOracle} {dir_a dir_b : FsPath} {hd : String}
    (rest : List String) (h : DirCmpShallowOnly.bucketOf st dir_a dir_b hd = 1) :
    DirCmpShallowOnly.cmpfiles st dir_a dir_b (hd :: rest) =
      ((DirCmpShallowOnly.cmpfiles st dir_a dir_b rest).1,
       hd :: (DirCmpShallowOnly.cmpfiles st dir_a dir_b rest).2.1,
       (DirCmpShallowOnly.cmpfiles st dir_a dir_b rest).2.2) := by
  rw [DirCmpShallowOnly.bucketOf] at h
  simp only [DirCmpShallowOnly.cmpfiles]
  rw [h]

theorem cmpfiles_cons_funny {st : StatOracle} {dir_a dir_b : FsPath} {hd : String}
    (rest : List String) (h0 : ¬ DirCmpShallowOnly.bucketOf st dir_a dir_b hd = 0)
    (h1 : ¬ DirCmpShallowOnly.bucketOf st dir_a dir_b hd = 1) :
    DirCmpShallowOnly.cmpfiles st dir_a dir_b (hd :: rest) =
      ((DirCmpShallowOnly.cmpfiles st dir_a dir_b rest).1,
       (DirCmpShallowOnly.cmpfiles st dir_a dir_b rest).2.1,
       hd :: (DirCmpShallowOnly.cmpfiles st dir_a dir_b rest).2.2) := by
  rw [DirCmpShallowOnly.bucketOf] at h0 h1
  obtain ⟨m, hm⟩ : ∃ m, DirCmpShallowOnly.cmpBucket st (ParentJoiner.join dir_a hd)
      (ParentJoiner.join dir_b hd) = m + 2 :=
    ⟨DirCmpShallowOnly.cmpBucket st (ParentJoiner.join dir_a hd)
      (ParentJoiner.join dir_b hd) - 2, by omega⟩
  simp only [DirCmpShallowOnly.cmpfiles, hm]

/-- Membership characterization of the three buckets of `cmpfiles`: a name
lands in `same_files` iff its bucket is 0, in `diff_files` iff its bucket
is 1, and in `funny_files` iff its bucket is neither 0 nor 1. -/
theorem mem_cmpfiles (st : StatOracle) (dir_a dir_b : FsPath) :
    ∀ (common_files : List String) (x : String),
      (x ∈ (DirCmpShallowOnly.cmpfiles st dir_a dir_b common_files).1 ↔
        x ∈ common_files ∧ DirCmpShallowOnly.bucketOf st dir_a dir_b x = 0) ∧
      (x ∈ (DirCmpShallowOnly.cmpfiles st dir_a dir_b common_files).2.1 ↔
        x ∈ common_files ∧ DirCmpShallowOnly.bucketOf st dir_a dir_b x = 1) ∧
      (x ∈ (DirCmpShallowOnly.cmpfiles st dir_a dir_b common_files).2.2 ↔
        x ∈ common_files ∧ ¬ DirCmpShallowOnly.bucketOf st dir_a dir_b x = 0 ∧
          ¬ DirCmpShallowOnly.bucketOf st dir_a dir_b x = 1) := by
  intro common_files
  induction common_files with
  | nil =>
    intro x
    simp [DirCmpShallowOnly.cmpfiles]
  | cons hd rest ih =>
    intro x
    obtain ⟨ih1, ih2, ih3⟩ := ih x
    by_cases h0 : DirCmpShallowOnly.bucketOf st dir_a dir_b hd = 0
    · rw [cmpfiles_cons_same rest h0]
      refine ⟨?_, ?_, ?_⟩
      · simp only [List.mem_cons, ih1]
        constructor
        · rintro (rfl | ⟨hm, hb⟩)
          · exact ⟨Or.inl rfl, h0⟩
          · exact ⟨Or.inr hm, hb⟩
        · rintro ⟨rfl | hm, hb⟩
          · exact Or.inl rfl
          · exact Or.inr ⟨hm, hb⟩
      · simp only [ih2, List.mem_cons]
        constructor
        · rintro ⟨hm, hb⟩
          exact ⟨Or.inr hm, hb⟩
        · rintro ⟨rfl | hm, hb⟩
          · omega
          · exact ⟨hm, hb⟩
      · simp only [ih3, List.mem_cons]
        constructor
        · rintro ⟨hm, hb⟩
          exact ⟨Or.inr hm, hb⟩
        · rintro ⟨rfl | hm, hb⟩
          · omega
          · exact ⟨hm, hb⟩
    · by_cases h1 : DirCmpShallowOnly.bucketOf st dir_a dir_b hd = 1
      · rw [cmpfiles_cons_diff rest h1]
        refine ⟨?_, ?_, ?_⟩
        · simp only [ih1, List.mem_cons]
          constructor
          · rintro ⟨hm, hb⟩
            exact ⟨Or.inr hm, hb⟩
          · rintro ⟨rfl | hm, hb⟩
            · omega
            · exact ⟨hm, hb⟩
        · simp only [List.mem_cons, ih2]
          constructor
          · rintro (rfl | ⟨hm, hb⟩)
            · exact ⟨Or.inl rfl, h1⟩
            · exact ⟨Or.inr hm, hb⟩
          · rintro ⟨rfl | hm, hb⟩
            · exact Or.inl rfl
            · exact Or.inr ⟨hm, hb⟩
        · simp only [ih3, List.mem_cons]
          constructor
          · rintro ⟨hm, hb⟩
            exact ⟨Or.inr hm, hb⟩
          · rintro ⟨rfl | hm, hb⟩
            · omega
            · exact ⟨hm, hb⟩
      · rw [cmpfiles_cons_funny rest h0 h1]
        refine ⟨?_, ?_, ?_⟩
        · simp only [ih1, List.mem_cons]
          constructor
          · rintro ⟨hm, hb⟩
            exact ⟨Or.inr hm, hb⟩
          · rintro ⟨rfl | hm, hb⟩
            · omega
            · exact ⟨hm, hb⟩
        · simp only [ih2, List.mem_cons]
          constructor
          · rintro ⟨hm, hb⟩
            exact ⟨Or.inr hm, hb⟩
          · rintro ⟨rfl | hm, hb⟩
            · omega
            · exact ⟨hm, hb⟩
        · simp only [List.mem_cons, ih3]
          constructor
          · rintro (rfl | ⟨hm, hb⟩)
            · exact ⟨Or.inl rfl, h0, h1⟩
            · exact ⟨Or.inr hm, hb⟩
          · rintro ⟨rfl | hm, hb⟩
            · exact Or.inl rfl
            · exact Or.inr ⟨hm, hb⟩

/-- C9: Stat-failure handling.  For every common name compared by
`cmpfiles`, if the stat of either joined path fails with an OS error, the
name is placed in the ambiguous (`funny_files`) bucket, it is classified
neither `same` nor `different`, and the comparison itself returns normally
(the embedding is a total function; the `OSError` is consumed by `_cmp`). -/
theorem c9_stat_failure_ambiguous (st : StatOracle) (dir_a dir_b : FsPath)
    (common_files : List String) (n : String)
    (hmem : n ∈ common_files)
    (hfail : st (ParentJoiner.join dir_a n) = none ∨ st (ParentJoiner.join dir_b n) = none) :
    n ∈ (DirCmpShallowOnly.cmpfiles st dir_a dir_b common_files).2.2 ∧
    ¬ n ∈ (DirCmpShallowOnly.cmpfiles st dir_a dir_b common_files).1 ∧
    ¬ n ∈ (DirCmpShallowOnly.cmpfiles st dir_a dir_b common_files).2.1 := by
  have hb : DirCmpShallowOnly.bucketOf st dir_a dir_b n = 2 := cmpBucket_eq_two hfail
  obtain ⟨h1, h2, h3⟩ := mem_cmpfiles st dir_a dir_b common_files n
  refine ⟨h3.2 ⟨hmem, by omega, by omega⟩, ?_, ?_⟩
  · intro hc
    have := (h1.1 hc).2
    omega
  · intro hc
    have := (h2.1 hc).2
    omega

/-- A stat oracle that fails (raises `OSError`) on one specific source
path and otherwise reports a regular file. -/
def failingStat : StatOracle := fun p =>
  if p = ["a", "x"] then none else some ⟨S_IFREG, 5, 7⟩

theorem c9_stat_failure_ambiguous_witness :
    ("x" ∈ ["w", "x"]) ∧
    (failingStat (ParentJoiner.join ["a"] "x") = none ∨
      failingStat (ParentJoiner.join ["b"] "x") = none) ∧
    ("x" ∈ (DirCmpShallowOnly.cmpfiles failingStat ["a"] ["b"] ["w", "x"]).2.2 ∧
     ¬ "x" ∈ (DirCmpShallowOnly.cmpfiles failingStat ["a"] ["b"] ["w", "x"]).1 ∧
     ¬ "x" ∈ (DirCmpShallowOnly.cmpfiles failingStat ["a"] ["b"] ["w", "x"]).2.1) :=
  ⟨by decide, Or.inl (by rfl),
   c9_stat_failure_ambiguous failingStat ["a"] ["b"] ["w", "x"] "x" (by decide)
     (Or.inl (by rfl))⟩

/-- The stat result of a directory entry: directory kind, with size and
modification time chosen equal on both sides. -/
def dirStat : StatResult := ⟨S_IFDIR, 0, 0⟩

/-- A stat oracle under which every path is the same directory entry. -/
def twoDirStat : StatOracle := fun _ => some dirStat

/-- C2 (evaluating the code at the failing input): under a stat oracle
where both compared entries are directories (not regular files) with equal
(kind, size, mtime) signatures, `cmp` reports `same` and `cmpfiles` puts
the common name into the `same_files` bucket — although neither entry is
a regular file.  The regular-file guard of `cmp` (line 112-113) only
re-assigns the initial `False` and is not an early return, so the
signature-equality test (line 114-115) overrides it. -/
theorem c2_nonregular_equal_sig_reported_same :
    S_IFMT dirStat.st_mode ≠ S_IFREG ∧
    DirCmpShallowOnly.cmp twoDirStat ["a", "d"] ["b", "d"] = some true ∧
    DirCmpShallowOnly.cmpfiles twoDirStat ["a"] ["b"] ["d"] = (["d"], [], []) :=
  ⟨by decide, by rfl, by rfl⟩

theorem check_no_copy_remove (TARGET_PATH : FsPath) (isdir : FsPath → Bool)
    (target : FsPath) (dry_run : Bool) :
    ∀ e ∈ check_and_create_folder TARGET_PATH isdir target dry_run,
      isCopyAct e = false ∧ isRemoveAct e = false := by
  intro e he
  rw [check_and_create_folder] at he
  split at he
  · split at he
    · simp at he
      subst he
      exact ⟨rfl, rfl⟩
    · simp at he
      subst he
      exact ⟨rfl, rfl⟩
  · cases he

theorem copyPhase_no_remove (dry_run : Bool) :
    ∀ (updates : List (FsPath × FsPath)) (e : Event),
      e ∈ copyPhase dry_run updates → isRemoveAct e = false := by
  intro updates
  induction updates with
  | nil =>
    intro e he
    cases he
  | cons p rest ih =>
    obtain ⟨l, r⟩ := p
    intro e he
    rw [copyPhase] at he
    rcases List.mem_append.1 he with h | h
    · split at h
      · simp at h
        subst h
        rfl
      · simp at h
        rcases h with rfl | rfl <;> rfl
    · exact ih e h

theorem removePhase_no_copy (dry_run : Bool) :
    ∀ (removals : List FsPath) (e : Event),
      e ∈ removePhase dry_run removals → isCopyAct e = false := by
  intro removals
  induction removals with
  | nil =>
    intro e he
    cases he
  | cons t rest ih =>
    intro e he
    rw [removePhase] at he
    rcases List.mem_append.1 he with h | h
    · split at h
      · simp at h
        subst h
        rfl
      · simp at h
        rcases h with rfl | rfl <;> rfl
    · exact ih e h

/-- In a trace split into a part with no `Q`-events followed by a part
with no `P`-events, every `P`-event occurs strictly before every
`Q`-event. -/
theorem split_order {A B : List Event} {P Q : Event → Bool}
    (hA : ∀ e ∈ A, Q e = false) (hB : ∀ e ∈ B, P e = false) :
    ∀ (i j : Nat) (e f : Event), (A ++ B)[i]? = some e → P e = true →
      (A ++ B)[j]? = some f → Q f = true → i < j := by
  intro i j e f hi hpe hj hqf
  have hiA : i < A.length := by
    by_contra hge
    push_neg at hge
    rw [List.getElem?_append_right hge] at hi
    have hmem : e ∈ B := List.getElem?_mem hi
    rw [hB e hmem] at hpe
    cases hpe
  have hjB : A.length ≤ j := by
    by_contra hlt
    push_neg at hlt
    rw [List.getElem?_append_left hlt] at hj
    have hmem : f ∈ A := List.getElem?_mem hj
    rw [hA f hmem] at hqf
    cases hqf
  omega

/-- C3: Two-phase global barrier.  In every non-dry-run execution of the
driver, every `do_copy` invocation for the whole run occurs strictly
before the first `do_remove` invocation in the event trace: a removal is
never executed before all updates of the run have been applied. -/
theorem c3_two_phase_barrier (TARGET_PATH : FsPath) (isdir : FsPath → Bool)
    (tout : FsPath → Bool) (root : DiffNode) (i j : Nat) (e f : Event)
    (hi : (mainRun TARGET_PATH isdir false tout root)[i]? = some e)
    (hpe : isCopyAct e = true)
    (hj : (mainRun TARGET_PATH isdir false tout root)[j]? = some f)
    (hqf : isRemoveAct f = true) : i < j := by
  rw [mainRun] at hi hj
  refine split_order ?_ ?_ i j e f hi hpe hj hqf
  · intro x hx
    rcases List.mem_append.1 hx with h | h
    · exact (check_no_copy_remove TARGET_PATH isdir TARGET_PATH false x h).2
    · exact copyPhase_no_remove false _ x h
  · intro x hx
    exact removePhase_no_copy false _ x hx

/-- A one-level diff tree with one update name and one removal name. -/
def pairTree : DiffNode := DiffNode.node ["s"] ["t"] ["a"] ["b"] [] [] [] []

theorem c3_two_phase_barrier_witness :
    (mainRun ["t"] (fun _ : FsPath => true) false (fun _ : FsPath => false) pairTree)[1]? =
        some (Event.copyAction ["s", "a"] ["t", "a"]) ∧
    isCopyAct (Event.copyAction ["s", "a"] ["t", "a"]) = true ∧
    (mainRun ["t"] (fun _ : FsPath => true) false (fun _ : FsPath => false) pairTree)[3]? =
        some (Event.removeAction ["t", "b"]) ∧
    isRemoveAct (Event.removeAction ["t", "b"]) = true ∧
    (1 : Nat) < 3 := by
  have htrace : mainRun ["t"] (fun _ : FsPath => true) false (fun _ : FsPath => false) pairTree =
      [Event.printCopy ["s", "a"] ["t", "a"] false, Event.copyAction ["s", "a"] ["t", "a"],
       Event.printRemove ["t", "b"] false, Event.removeAction ["t", "b"]] := by
    simp [mainRun, check_and_create_folder, collect_updates, collectUpdatesAux_nil,
      collect_removals, collect_removals_go_cons, collect_removals_go_nil, subdirsVals,
      nodeUpdates, nodeRemovals, ParentPairJoiner.join, ParentJoiner.join, copyPhase,
      removePhase, pairTree]
  refine ⟨by rw [htrace]; rfl, rfl, by rw [htrace]; rfl, rfl, ?_⟩
  exact c3_two_phase_barrier ["t"] (fun _ : FsPath => true) (fun _ : FsPath => false) pairTree
    1 3 (Event.copyAction ["s", "a"] ["t", "a"]) (Event.removeAction ["t", "b"])
    (by rw [htrace]; rfl) rfl (by rw [htrace]; rfl) rfl

theorem check_dry (TARGET_PATH target : FsPath) (isdir : FsPath → Bool) :
    (∀ e ∈ check_and_create_folder TARGET_PATH isdir target true, mutates e = false) ∧
    (check_and_create_folder TARGET_PATH isdir target true).filterMap copyReport = [] ∧
    (check_and_create_folder TARGET_PATH isdir target true).filterMap removeReport = [] := by
  cases h : isdir target <;>
    simp [check_and_create_folder, h, mutates, copyReport, removeReport]

theorem copyPhase_dry (updates : List (FsPath × FsPath)) :
    (∀ e ∈ copyPhase true updates, mutates e = false) ∧
    (copyPhase true updates).filterMap copyReport = updates ∧
    (copyPhase true updates).filterMap removeReport = [] := by
  induction updates with
  | nil => simp [copyPhase]
  | cons p rest ih =>
    obtain ⟨l, r⟩ := p
    obtain ⟨ih1, ih2, ih3⟩ := ih
    refine ⟨?_, ?_, ?_⟩
    · intro e he
      rw [copyPhase] at he
      rcases List.mem_append.1 he with h | h
      · simp at h
        subst h
        rfl
      · exact ih1 e h
    · rw [copyPhase, List.filterMap_append, ih2]
      simp [copyReport]
    · rw [copyPhase, List.filterMap_append, ih3]
      simp [removeReport]

theorem removePhase_dry (removals : List FsPath) :
    (∀ e ∈ removePhase true removals, mutates e = false) ∧
    (removePhase true removals).filterMap copyReport = [] ∧
    (removePhase true removals).filterMap removeReport = removals := by
  induction removals with
  | nil => simp [removePhase]
  | cons t rest ih =>
    obtain ⟨ih1, ih2, ih3⟩ := ih
    refine ⟨?_, ?_, ?_⟩
    · intro e he
      rw [removePhase] at he
      rcases List.mem_append.1 he with h | h
      · simp at h
        subst h
        rfl
      · exact ih1 e h
    · rw [removePhase, List.filterMap_append, ih2]
      simp [copyReport]
    · rw [removePhase, List.filterMap_append, ih3]
      simp [removeReport]

/-- C5: Dry-run purity.  In every dry-run execution of the driver, no
event of the trace mutates the filesystem (no directory creation, no
`do_copy`, no `do_remove`), while every collected update pair and every
collected removal path is still reported through the printing channel, in
order. -/
theorem c5_dry_run_purity (TARGET_PATH : FsPath) (isdir : FsPath → Bool)
    (tout : FsPath → Bool) (root : DiffNode) :
    (∀ e ∈ mainRun TARGET_PATH isdir true tout root, mutates e = false) ∧
    (mainRun TARGET_PATH isdir true tout root).filterMap copyReport =
      (collect_updates tout root).1 ∧
    (mainRun TARGET_PATH isdir true tout root).filterMap removeReport =
      collect_removals root := by
  obtain ⟨hc1, hc2, hc3⟩ := check_dry TARGET_PATH TARGET_PATH isdir
  obtain ⟨hp1, hp2, hp3⟩ := copyPhase_dry (collect_updates tout root).1
  obtain ⟨hr1, hr2, hr3⟩ := removePhase_dry (collect_removals root)
  refine ⟨?_, ?_, ?_⟩
  · intro e he
    rw [mainRun] at he
    rcases List.mem_append.1 he with h | h
    · rcases List.mem_append.1 h with h2 | h2
      · exact hc1 e h2
      · exact hp1 e h2
    · exact hr1 e h
  · rw [mainRun, List.filterMap_append, List.filterMap_append, hc2, hp2, hr2]
    simp
  · rw [mainRun, List.filterMap_append, List.filterMap_append, hc3, hp3, hr3]
    simp

/-- C10: Implicit behavior of `check_and_create_folder`.  The existence
check runs on the `target` parameter, but the directory actually created
(non-dry-run) and the path logged (dry-run) are the module-global
`_TARGET_PATH`: whenever `target` does not exist and differs from the
global, the function creates (or reports) the global instead of `target`,
so it behaves as specified only when called with `target` equal to the
global. -/
theorem c10_create_folder_uses_global (TARGET_PATH : FsPath) (isdir : FsPath → Bool)
    (target : FsPath) (hne : target ≠ TARGET_PATH) (hnd : isdir target = false) :
    check_and_create_folder TARGET_PATH isdir target false = [Event.mkdir TARGET_PATH] ∧
    check_and_create_folder TARGET_PATH isdir target true =
      [Event.logCreateNeeded TARGET_PATH] ∧
    ¬ Event.mkdir target ∈ check_and_create_folder TARGET_PATH isdir target false :=
  ⟨by simp [check_and_create_folder, hnd],
   by simp [check_and_create_folder, hnd],
   by simp [check_and_create_folder, hnd, hne]⟩

theorem c10_create_folder_uses_global_witness :
    ((["q"] : FsPath) ≠ ["g"]) ∧ ((fun _ : FsPath => false) ["q"] = false) ∧
    (check_and_create_folder ["g"] (fun _ : FsPath => false) ["q"] false =
        [Event.mkdir ["g"]] ∧
     check_and_create_folder ["g"] (fun _ : FsPath => false) ["q"] true =
        [Event.logCreateNeeded ["g"]] ∧
     ¬ Event.mkdir ["q"] ∈ check_and_create_folder ["g"] (fun _ : FsPath => false) ["q"] false) :=
  ⟨by decide, rfl,
   c10_create_folder_uses_global ["g"] (fun _ : FsPath => false) ["q"] (by decide) rfl⟩

theorem do_copy_invokes (ops : FsOps) (l r : FsPath) :
    (do_copy ops l r).filterMap invokeOf = [("do_copy", [l, r])] := by
  rw [do_copy, safe_action.eq_def]
  cases do_copy_raw ops l r <;> simp [invokeOf]

theorem do_remove_invokes (ops : FsOps) (t : FsPath) :
    (do_remove ops t).filterMap invokeOf = [("do_remove", [t])] := by
  rw [do_remove, safe_action.eq_def]
  cases do_remove_raw ops t <;> simp [invokeOf]

theorem runCopies_invokes (ops : FsOps) :
    ∀ updates : List (FsPath × FsPath),
      (runCopies ops updates).filterMap invokeOf =
        updates.map (fun p => ("do_copy", [p.1, p.2])) := by
  intro updates
  induction updates with
  | nil => rfl
  | cons p rest ih =>
    obtain ⟨l, r⟩ := p
    rw [runCopies, List.filterMap_append, do_copy_invokes, ih, List.map_cons]
    rfl

theorem runRemovals_invokes (ops : FsOps) :
    ∀ removals : List FsPath,
      (runRemovals ops removals).filterMap invokeOf =
        removals.map (fun t => ("do_remove", [t])) := by
  intro removals
  induction removals with
  | nil => rfl
  | cons t rest ih =>
    rw [runRemovals, List.filterMap_append, do_remove_invokes, ih, List.map_cons]
    rfl

theorem runCopies_logs (ops : FsOps) :
    ∀ (updates : List (FsPath × FsPath)) (l r : FsPath) (exc : String),
      (l, r) ∈ updates → do_copy_raw ops l r = Except.error exc →
        ExecEvent.failLog "do_copy" [l, r] exc ∈ runCopies ops updates := by
  intro updates
  induction updates with
  | nil =>
    intro l r exc h
    cases h
  | cons p rest ih =>
    obtain ⟨lh, rh⟩ := p
    intro l r exc hmem herr
    rw [runCopies, List.mem_append]
    rcases List.mem_cons.1 hmem with heq | hmem2
    · injection heq with h1 h2
      subst h1
      subst h2
      left
      rw [do_copy, safe_action.eq_def, herr]
      simp
    · exact Or.inr (ih l r exc hmem2 herr)

theorem runRemovals_logs (ops : FsOps) :
    ∀ (removals : List FsPath) (t : FsPath) (exc : String),
      t ∈ removals → do_remove_raw ops t = Except.error exc →
        ExecEvent.failLog "do_remove" [t] exc ∈ runRemovals ops removals := by
  intro removals
  induction removals with
  | nil =>
    intro t exc h
    cases h
  | cons th rest ih =>
    intro t exc hmem herr
    rw [runRemovals, List.mem_append]
    rcases List.mem_cons.1 hmem with heq | hmem2
    · subst heq
      left
      rw [do_remove, safe_action.eq_def, herr]
      simp
    · exact Or.inr (ih t exc hmem2 herr)

/-- C6: Fault isolation of actions.  Every scheduled copy and removal is
invoked exactly once, in order, whatever exceptions the underlying
operations raise — an earlier item's failure never prevents a later item
from executing — and every raised exception is caught and logged with the
operation name, the call arguments, and the traceback; the wrapped
operations return normally, so no exception propagates to the driver. -/
theorem c6_fault_isolation (ops : FsOps) (updates : List (FsPath × FsPath))
    (removals : List FsPath) :
    ((runActions ops updates removals).filterMap invokeOf =
      updates.map (fun p => ("do_copy", [p.1, p.2])) ++
        removals.map (fun t => ("do_remove", [t]))) ∧
    (∀ l r exc, (l, r) ∈ updates → do_copy_raw ops l r = Except.error exc →
      ExecEvent.failLog "do_copy" [l, r] exc ∈ runActions ops updates removals) ∧
    (∀ t exc, t ∈ removals → do_remove_raw ops t = Except.error exc →
      ExecEvent.failLog "do_remove" [t] exc ∈ runActions ops updates removals) := by
  refine ⟨?_, ?_, ?_⟩
  · rw [runActions, List.filterMap_append, runCopies_invokes, runRemovals_invokes]
  · intro l r exc hm he
    rw [runActions, List.mem_append]
    exact Or.inl (runCopies_logs ops updates l r exc hm he)
  · intro t exc hm he
    rw [runActions, List.mem_append]
    exact Or.inr (runRemovals_logs ops removals t exc hm he)

/-- Effect oracles where copying the pair (s/a, t/a) raises while every
other operation succeeds. -/
def failOps : FsOps where
  isdir := fun _ => false
  copytree := fun _ _ => Except.ok ()
  copy2 := fun p _ => if p = ["s", "a"] then Except.error "PermissionError" else Except.ok ()
  rmtree := fun _ => Except.ok ()
  removeFile := fun _ => Except.ok ()

theorem c6_fault_isolation_witness :
    ((["s", "a"], ["t", "a"]) ∈
        [((["s", "a"] : FsPath), (["t", "a"] : FsPath)), (["s", "c"], ["t", "c"])]) ∧
    do_copy_raw failOps ["s", "a"] ["t", "a"] = Except.error "PermissionError" ∧
    ExecEvent.failLog "do_copy" [["s", "a"], ["t", "a"]] "PermissionError" ∈
      runActions failOps [(["s", "a"], ["t", "a"]), (["s", "c"], ["t", "c"])] [["t", "b"]] ∧
    (runActions failOps [(["s", "a"], ["t", "a"]), (["s", "c"], ["t", "c"])]
        [["t", "b"]]).filterMap invokeOf =
      [("do_copy", [["s", "a"], ["t", "a"]]), ("do_copy", [["s", "c"], ["t", "c"]]),
       ("do_remove", [["t", "b"]])] := by
  have hfi := c6_fault_isolation failOps
    [(["s", "a"], ["t", "a"]), (["s", "c"], ["t", "c"])] [["t", "b"]]
  refine ⟨by decide, by rfl, ?_, ?_⟩
  · exact hfi.2.1 ["s", "a"] ["t", "a"] "PermissionError" (by decide) (by rfl)
  · rw [hfi.1]
    rfl

/-- Embeds the drain loop of `collect_updates` in the presence of
timeouts, without assuming a timed-out task's effects are lost.  The
returned collection is `itertools.chain(*all_diff_files)` taken at line
172, and a task whose `result(30)` wait timed out (oracle `tout` on the
task's left path) is not cancelled: `pool.shutdown(False)` (line 168)
lets it keep running, and if its body executes before line 172 it still
appends its pairs to `all_diff_files` (line 186) and enqueues its
children (line 195) into the still-draining queue.  The oracle `ran`
selects, for each timed-out task, the execution in which its abandoned
body did run before the result was assembled (with its children enqueued
in time to be drained) or the one in which it never ran; a successfully
awaited task has always run.  Each choice of `tout` and `ran` is one
legal execution of the source's race.  The timeout warning (line 166) is
emitted for every drained future whose wait timed out, whether or not
the task ran. -/
def collectUpdatesRacyAux (tout ran : FsPath → Bool) :
    List DiffNode → List (FsPath × FsPath) × List FsPath
  | [] => ([], [])
  | d :: rest =>
    if tout d.left then
      if ran d.left then
        let res := collectUpdatesRacyAux tout ran (rest ++ subdirsVals d.subdirs)
        (nodeUpdates d ++ res.1, d.left :: res.2)
      else
        let res := collectUpdatesRacyAux tout ran rest
        (res.1, d.left :: res.2)
    else
      let res := collectUpdatesRacyAux tout ran (rest ++ subdirsVals d.subdirs)
      (nodeUpdates d ++ res.1, res.2)
termination_by q => nsizeQ q
decreasing_by
  · simp only [nsizeQ, nsizeQ_append]
    have := nsizeQ_subdirs_lt d
    omega
  · simp only [nsizeQ]
    have := nsize_pos d
    omega
  · simp only [nsizeQ, nsizeQ_append]
    have := nsizeQ_subdirs_lt d
    omega

/-- Embeds `collect_updates` (lines 150-172) under the racy timeout
semantics: the root is processed synchronously, then the drain loop runs
with timeout oracle `tout` and abandoned-task-ran oracle `ran`. -/
def collect_updates_racy (tout ran : FsPath → Bool) (root : DiffNode) :
    List (FsPath × FsPath) × List FsPath :=
  let res := collectUpdatesRacyAux tout ran (subdirsVals root.subdirs)
  (nodeUpdates root ++ res.1, res.2)

mutual

/-- Modelled from the spec's timeout behavior restated over the racy
execution family: the union of update pairs over every node whose task
ran — a subtree is dropped exactly when its task timed out and its
abandoned body never executed before the result was assembled. -/
def racyUpdates (tout ran : FsPath → Bool) : DiffNode → List (FsPath × FsPath)
  | .node l r lo ro sf df ff sub =>
    nodeUpdates (.node l r lo ro sf df ff sub) ++ racyUpdatesL tout ran sub

/-- Racy union over a subdir association list. -/
def racyUpdatesL (tout ran : FsPath → Bool) : List (String × DiffNode) → List (FsPath × FsPath)
  | [] => []
  | (_, c) :: rest =>
    (if tout c.left && !(ran c.left) then [] else racyUpdates tout ran c)
      ++ racyUpdatesL tout ran rest

end

mutual

/-- The timeout warnings of a racy execution: one warning per drained
task whose wait timed out, whether or not its abandoned body ran. -/
def racyWarn (tout ran : FsPath → Bool) : DiffNode → List FsPath
  | .node _ _ _ _ _ _ _ sub => racyWarnL tout ran sub

/-- Racy warnings over a subdir association list. -/
def racyWarnL (tout ran : FsPath → Bool) : List (String × DiffNode) → List FsPath
  | [] => []
  | (_, c) :: rest =>
    (if tout c.left then
       c.left :: (if ran c.left then racyWarn tout ran c else [])
     else racyWarn tout ran c) ++ racyWarnL tout ran rest

end

/-- The contribution of one queued task to the racy update collection. -/
def racyOf (tout ran : FsPath → Bool) (d : DiffNode) : List (FsPath × FsPath) :=
  if tout d.left && !(ran d.left) then [] else racyUpdates tout ran d

/-- The contribution of one queued task to the racy warning log. -/
def racyWarnOf (tout ran : FsPath → Bool) (d : DiffNode) : List FsPath :=
  if tout d.left then d.left :: (if ran d.left then racyWarn tout ran d else [])
  else racyWarn tout ran d

theorem collectUpdatesRacyAux_nil (tout ran : FsPath → Bool) :
    collectUpdatesRacyAux tout ran [] = ([], []) := by
  simp [collectUpdatesRacyAux]

theorem collectUpdatesRacyAux_cons (tout ran : FsPath → Bool) (d : DiffNode)
    (rest : List DiffNode) :
    collectUpdatesRacyAux tout ran (d :: rest) =
      if tout d.left then
        if ran d.left then
          (nodeUpdates d ++ (collectUpdatesRacyAux tout ran (rest ++ subdirsVals d.subdirs)).1,
           d.left :: (collectUpdatesRacyAux tout ran (rest ++ subdirsVals d.subdirs)).2)
        else
          ((collectUpdatesRacyAux tout ran rest).1,
           d.left :: (collectUpdatesRacyAux tout ran rest).2)
      else
        (nodeUpdates d ++ (collectUpdatesRacyAux tout ran (rest ++ subdirsVals d.subdirs)).1,
         (collectUpdatesRacyAux tout ran (rest ++ subdirsVals d.subdirs)).2) := by
  rw [collectUpdatesRacyAux]

theorem racyUpdates_eq (tout ran : FsPath → Bool) (d : DiffNode) :
    racyUpdates tout ran d = nodeUpdates d ++ racyUpdatesL tout ran d.subdirs := by
  cases d with
  | node l r lo ro sf df ff sub => rw [racyUpdates, DiffNode.subdirs]

theorem racyUpdatesL_cons (tout ran : FsPath → Bool) (m : String) (c : DiffNode)
    (rest : List (String × DiffNode)) :
    racyUpdatesL tout ran ((m, c) :: rest) =
      (if tout c.left && !(ran c.left) then [] else racyUpdates tout ran c)
        ++ racyUpdatesL tout ran rest := by
  rw [racyUpdatesL]

theorem racyWarn_eq (tout ran : FsPath → Bool) (d : DiffNode) :
    racyWarn tout ran d = racyWarnL tout ran d.subdirs := by
  cases d with
  | node l r lo ro sf df ff sub => rw [racyWarn, DiffNode.subdirs]

theorem racyWarnL_cons (tout ran : FsPath → Bool) (m : String) (c : DiffNode)
    (rest : List (String × DiffNode)) :
    racyWarnL tout ran ((m, c) :: rest) =
      (if tout c.left then
         c.left :: (if ran c.left then racyWarn tout ran c else [])
       else racyWarn tout ran c) ++ racyWarnL tout ran rest := by
  rw [racyWarnL]

theorem flatMap_racyOf_subdirsVals (tout ran : FsPath → Bool)
    (sub : List (String × DiffNode)) :
    (subdirsVals sub).flatMap (racyOf tout ran) = racyUpdatesL tout ran sub := by
  induction sub with
  | nil => rfl
  | cons mc rest ih =>
    obtain ⟨m, c⟩ := mc
    rw [subdirsVals, List.flatMap_cons, racyUpdatesL_cons, ih, racyOf]

theorem flatMap_racyWarnOf_subdirsVals (tout ran : FsPath → Bool)
    (sub : List (String × DiffNode)) :
    (subdirsVals sub).flatMap (racyWarnOf tout ran) = racyWarnL tout ran sub := by
  induction sub with
  | nil => rfl
  | cons mc rest ih =>
    obtain ⟨m, c⟩ := mc
    rw [subdirsVals, List.flatMap_cons, racyWarnL_cons, ih, racyWarnOf]

/-- Both components of the racy drain loop's result, on any queue, are
permutations of the concatenated per-task racy contributions. -/
theorem collectRacyAux_perm (tout ran : FsPath → Bool) :
    ∀ fuel q, nsizeQ q ≤ fuel →
      ((collectUpdatesRacyAux tout ran q).1.Perm (q.flatMap (racyOf tout ran)) ∧
       (collectUpdatesRacyAux tout ran q).2.Perm (q.flatMap (racyWarnOf tout ran))) := by
  intro fuel
  induction fuel with
  | zero =>
    intro q hq
    cases q with
    | nil => simp [collectUpdatesRacyAux_nil]
    | cons d rest =>
      exfalso
      have := nsize_pos d
      simp only [nsizeQ] at hq
      omega
  | succ n ih =>
    intro q hq
    cases q with
    | nil => simp [collectUpdatesRacyAux_nil]
    | cons d rest =>
      rw [collectUpdatesRacyAux_cons]
      simp only [nsizeQ] at hq
      have hdpos := nsize_pos d
      have hsub : nsizeQ (rest ++ subdirsVals d.subdirs) ≤ n := by
        rw [nsizeQ_append, nsizeQ_subdirsVals]
        have := nsize_node_subdirs d
        omega
      cases htl : tout d.left with
      | true =>
        cases hrn : ran d.left with
        | true =>
          simp only [htl, hrn, if_true]
          obtain ⟨ih1, ih2⟩ := ih (rest ++ subdirsVals d.subdirs) hsub
          rw [List.flatMap_append, flatMap_racyOf_subdirsVals] at ih1
          rw [List.flatMap_append, flatMap_racyWarnOf_subdirsVals] at ih2
          have hflat1 : (d :: rest).flatMap (racyOf tout ran) =
              (nodeUpdates d ++ racyUpdatesL tout ran d.subdirs)
                ++ rest.flatMap (racyOf tout ran) := by
            simp [List.flatMap_cons, racyOf, htl, hrn, racyUpdates_eq]
          have hflat2 : (d :: rest).flatMap (racyWarnOf tout ran) =
              (d.left :: racyWarnL tout ran d.subdirs)
                ++ rest.flatMap (racyWarnOf tout ran) := by
            simp [List.flatMap_cons, racyWarnOf, htl, hrn, racyWarn_eq]
          constructor
          · rw [hflat1, List.append_assoc]
            exact List.Perm.append_left _ (ih1.trans List.perm_append_comm)
          · rw [hflat2]
            have step : (collectUpdatesRacyAux tout ran
                (rest ++ subdirsVals d.subdirs)).2.Perm
                  (racyWarnL tout ran d.subdirs ++ rest.flatMap (racyWarnOf tout ran)) :=
              ih2.trans List.perm_append_comm
            simpa using step.cons d.left
        | false =>
          simp only [htl, hrn, if_true, Bool.false_eq_true, if_false]
          have hrest : nsizeQ rest ≤ n := by omega
          obtain ⟨ih1, ih2⟩ := ih rest hrest
          constructor
          · simpa [List.flatMap_cons, racyOf, htl, hrn] using ih1
          · simpa [List.flatMap_cons, racyWarnOf, htl, hrn] using ih2
      | false =>
        simp only [htl, Bool.false_eq_true, if_false]
        obtain ⟨ih1, ih2⟩ := ih (rest ++ subdirsVals d.subdirs) hsub
        rw [List.flatMap_append, flatMap_racyOf_subdirsVals] at ih1
        rw [List.flatMap_append, flatMap_racyWarnOf_subdirsVals] at ih2
        have hflat1 : (d :: rest).flatMap (racyOf tout ran) =
            (nodeUpdates d ++ racyUpdatesL tout ran d.subdirs)
              ++ rest.flatMap (racyOf tout ran) := by
          simp [List.flatMap_cons, racyOf, htl, racyUpdates_eq]
        have hflat2 : (d :: rest).flatMap (racyWarnOf tout ran) =
            racyWarnL tout ran d.subdirs ++ rest.flatMap (racyWarnOf tout ran) := by
          simp [List.flatMap_cons, racyWarnOf, htl, racyWarn_eq]
        constructor
        · rw [hflat1, List.append_assoc]
          exact List.Perm.append_left _ (ih1.trans List.perm_append_comm)
        · rw [hflat2]
          exact ih2.trans List.perm_append_comm

/-- The racy collection and warning log are permutations of the racy
unions over the tree. -/
theorem collect_updates_racy_perm (tout ran : FsPath → Bool) (root : DiffNode) :
    (collect_updates_racy tout ran root).1.Perm (racyUpdates tout ran root) ∧
    (collect_updates_racy tout ran root).2.Perm (racyWarn tout ran root) := by
  obtain ⟨h1, h2⟩ := collectRacyAux_perm tout ran (nsizeQ (subdirsVals root.subdirs))
    (subdirsVals root.subdirs) (Nat.le_refl _)
  rw [flatMap_racyOf_subdirsVals] at h1
  rw [flatMap_racyWarnOf_subdirsVals] at h2
  constructor
  · rw [collect_updates_racy, racyUpdates_eq]
    exact List.Perm.append_left _ h1
  · rw [collect_updates_racy, racyWarn_eq]
    exact h2

/-- Every pair of a subtree that completed in time (the pruned union) is
present in every racy execution's collection. -/
theorem pruned_subset_racy_aux (tout ran : FsPath → Bool) :
    ∀ fuel, (∀ d, nsize d ≤ fuel →
               ∀ x, x ∈ prunedUpdates tout d → x ∈ racyUpdates tout ran d) ∧
            (∀ sub, nsizeL sub ≤ fuel →
               ∀ x, x ∈ prunedUpdatesL tout sub → x ∈ racyUpdatesL tout ran sub) := by
  intro fuel
  induction fuel with
  | zero =>
    constructor
    · intro d hd
      exact absurd hd (by have := nsize_pos d; omega)
    · intro sub hs x hx
      cases sub with
      | nil =>
        rw [prunedUpdatesL] at hx
        cases hx
      | cons mc rest =>
        exfalso
        obtain ⟨m, c⟩ := mc
        have := nsize_pos c
        simp only [nsizeL] at hs
        omega
  | succ n ih =>
    have nodePart : ∀ d, nsize d ≤ n + 1 →
        ∀ x, x ∈ prunedUpdates tout d → x ∈ racyUpdates tout ran d := by
      intro d hd x hx
      rw [prunedUpdates_eq, List.mem_append] at hx
      rw [racyUpdates_eq, List.mem_append]
      rcases hx with hx | hx
      · exact Or.inl hx
      · refine Or.inr (ih.2 d.subdirs ?_ x hx)
        have := nsize_node_subdirs d
        omega
    refine ⟨nodePart, ?_⟩
    intro sub
    induction sub with
    | nil =>
      intro _ x hx
      rw [prunedUpdatesL] at hx
      cases hx
    | cons mc rest ihl =>
      obtain ⟨m, c⟩ := mc
      intro hs x hx
      simp only [nsizeL] at hs
      have hc := nsize_pos c
      rw [prunedUpdatesL_cons, List.mem_append] at hx
      rw [racyUpdatesL_cons, List.mem_append]
      rcases hx with hx | hx
      · left
        by_cases htc : tout c.left = true
        · rw [if_pos htc] at hx
          cases hx
        · rw [if_neg htc] at hx
          have hcond : (tout c.left && !(ran c.left)) = false := by
            cases h : tout c.left
            · rfl
            · exact absurd h htc
          rw [hcond]
          simp only [Bool.false_eq_true, if_false]
          exact nodePart c (by omega) x hx
      · exact Or.inr (ihl (by omega) x hx)

/-- C4 (amended): when a scheduled subtree task does not complete within
the per-task bound, the driver logs a warning naming the subtree and
stops waiting for it; the returned collection always contains the pairs
of every subtree that completed in time, and across the legal executions
of the race the collection is exactly the union over the subtrees whose
task ran — the timed-out subtree is omitted precisely in the executions
where its abandoned body never ran before the result was assembled, and
is included otherwise. -/
theorem c4_timeout_semantics_amended (tout ran : FsPath → Bool) (root : DiffNode) :
    (collect_updates_racy tout ran root).2.Perm (racyWarn tout ran root) ∧
    (∀ x ∈ prunedUpdates tout root, x ∈ (collect_updates_racy tout ran root).1) ∧
    (collect_updates_racy tout ran root).1.Perm (racyUpdates tout ran root) := by
  obtain ⟨hp, hw⟩ := collect_updates_racy_perm tout ran root
  refine ⟨hw, ?_, hp⟩
  intro x hx
  have hr : x ∈ racyUpdates tout ran root :=
    (pruned_subset_racy_aux tout ran (nsize root)).1 root (Nat.le_refl _) x hx
  exact hp.mem_iff.2 hr

theorem c4_timeout_semantics_amended_witness :
    ((["s", "a"], ["t", "a"]) ∈ prunedUpdates (fun _ : FsPath => false) witTree) ∧
    (["s", "a"], ["t", "a"]) ∈
      (collect_updates_racy (fun _ : FsPath => false) (fun _ : FsPath => false) witTree).1 :=
  ⟨by decide,
   (c4_timeout_semantics_amended (fun _ : FsPath => false) (fun _ : FsPath => false)
      witTree).2.1 (["s", "a"], ["t", "a"]) (by decide)⟩

/-- The diff tree of the timeout counterexample: the root has a single
common subdirectory `d` whose node carries one changed file `x`. -/
def raceTree : DiffNode :=
  DiffNode.node ["s"] ["t"] [] [] [] [] []
    [("d", DiffNode.node ["s", "d"] ["t", "d"] ["x"] [] [] [] [] [])]

/-- The execution in which the wait for the subtree `d` task times out. -/
def raceTout : FsPath → Bool := fun p => decide (p = ["s", "d"])

/-- The execution in which the abandoned task for subtree `d`
nevertheless runs before line 172 assembles the result. -/
def raceRan : FsPath → Bool := fun p => decide (p = ["s", "d"])

/-- C4 counterexample: a legal execution of the drain race in which the
subtree task for `s/d` times out (the warning is logged) yet its update
pair still appears in the collection returned by `collect_updates`,
because the abandoned task is not cancelled and appends to
`all_diff_files` before the result is chained — the claimed guaranteed
omission of the timed-out subtree does not hold. -/
theorem c4_timeout_not_always_omitted :
    raceTout ["s", "d"] = true ∧
    (["s", "d", "x"], ["t", "d", "x"]) ∈ (collect_updates_racy raceTout raceRan raceTree).1 ∧
    ["s", "d"] ∈ (collect_updates_racy raceTout raceRan raceTree).2 := by
  have htrace : collect_updates_racy raceTout raceRan raceTree =
      ([(["s", "d", "x"], ["t", "d", "x"])], [["s", "d"]]) := by
    simp [collect_updates_racy, collectUpdatesRacyAux_cons, collectUpdatesRacyAux_nil,
      subdirsVals, nodeUpdates, ParentPairJoiner.join, ParentJoiner.join, raceTree,
      raceTout, raceRan]
  rw [htrace]
  exact ⟨by decide, List.mem_singleton.2 rfl, List.mem_singleton.2 rfl⟩
